import Mathlib

/-!
Verification of the transcript-acquisition core of the youtube-gemini-article
tool.  The Python sources (`video_pipeline.py`, `audio_transcriber.py`) are
shallowly embedded: strings become `List Char`, Python floats become the
`PyF` type (finite rational / infinities / nan), fallible code returns
`Option`/`Except` (`none` / `.error` meaning the Python code raises), and
external collaborators (the caption API, yt-dlp, the HTTP downloader,
`json.loads`, the Gemini client) are passed in as already-produced values.
-/

set_option maxRecDepth 10000
set_option exponentiation.threshold 2048

attribute [local semireducible] Rat.add Rat.mul Rat.sub Rat.inv

/-! ## Character and string primitives (Python `str` as `List Char`) -/

/-- ASCII decimal digit test (`str.isdigit` restricted to ASCII; Python also
accepts some Unicode digit classes, which are not modelled). -/
def isDigitCh (c : Char) : Bool := 48 ≤ c.toNat && c.toNat ≤ 57

/-- Python whitespace for `str.strip` / `\s` (ASCII part). -/
def isPyWs (c : Char) : Bool :=
  c = ' ' || c = '\t' || c = '\n' || c = '\r' || c = '\x0b' || c = '\x0c'

/-- Python `str.strip()`: drop leading and trailing whitespace. -/
def pyStrip (l : List Char) : List Char :=
  ((l.dropWhile isPyWs).reverse.dropWhile isPyWs).reverse

/-- Python `str.split(sep)` for a single-character separator: keeps empty
pieces, `[]` splits to `[[]]`. -/
def splitOnCh (sep : Char) : List Char → List (List Char)
  | [] => [[]]
  | c :: rest =>
    if c = sep then
      [] :: splitOnCh sep rest
    else
      match splitOnCh sep rest with
      | [] => [[c]]
      | g :: gs => (c :: g) :: gs

/-- Split on `":"` as done by both timestamp parsers. -/
def splitCols (l : List Char) : List (List Char) := splitOnCh ':' l

/-- Python `str.replace("\n", " ")`. -/
def replaceNl (l : List Char) : List Char :=
  l.map fun c => if c = '\n' then ' ' else c

/-- The numeric value of a digit character. -/
def digitVal (c : Char) : ℕ := c.toNat - 48

/-- The digit character for `n < 10`. -/
def digitCh (n : ℕ) : Char := Char.ofNat (48 + n)

/-- Value of a run of digit characters, most significant first (the value
`int(s)` gives on an all-digit string). -/
def parseDigits (l : List Char) : ℕ :=
  l.foldl (fun a c => 10 * a + digitVal c) 0

/-- Decimal rendering, fuelled so that the kernel can evaluate it (the
fuel is always sufficient, see `natToCharsAux_spec`). -/
def natToCharsAux : ℕ → ℕ → List Char
  | 0, _ => []
  | fuel + 1, n =>
    if n < 10 then [digitCh n]
    else natToCharsAux fuel (n / 10) ++ [digitCh (n % 10)]

/-- Decimal rendering of a natural number (Python `str(n)` for `n ≥ 0`). -/
def natToChars (n : ℕ) : List Char := natToCharsAux (n + 1) n

/-- Decimal rendering of an integer (Python `str(z)`). -/
def intToChars (z : ℤ) : List Char :=
  if z < 0 then '-' :: natToChars z.natAbs else natToChars z.natAbs

/-- Python `int(s)` on a string: optional surrounding whitespace, optional
sign, then a nonempty digit run (digit-grouping underscores are not
modelled).  `none` means `int` raises `ValueError`. -/
def pyInt (l : List Char) : Option ℤ :=
  let t := pyStrip l
  match t with
  | '+' :: ds => if ds ≠ [] && ds.all isDigitCh then some (parseDigits ds) else none
  | '-' :: ds => if ds ≠ [] && ds.all isDigitCh then some (-(parseDigits ds : ℤ)) else none
  | ds => if ds ≠ [] && ds.all isDigitCh then some (parseDigits ds) else none

/-- Python `s.isdigit()` (ASCII digits). -/
def pyIsDigit (l : List Char) : Bool := l ≠ [] && l.all isDigitCh

/-! ## Python floats

Python floats are modelled as exact rationals plus the non-finite values.
Binary rounding of finite values is not modelled (it never affects the
claims, which only exercise integer-valued and small decimal inputs), but
overflow to infinity and the non-finite values are, because `int()` applied
to them raises. -/

/-- A Python float value. -/
inductive PyF where
  | fin (q : ℚ)
  | inf
  | ninf
  | nan
  deriving DecidableEq, Repr

/-- Python `<` on floats: `nan` compares false against everything. -/
def pyLt : PyF → PyF → Bool
  | .fin a, .fin b => a < b
  | .fin _, .inf => true
  | .ninf, .fin _ => true
  | .ninf, .inf => true
  | _, _ => false

/-- Python float addition. -/
def pyAdd : PyF → PyF → PyF
  | .fin a, .fin b => .fin (a + b)
  | .fin _, .inf => .inf
  | .fin _, .ninf => .ninf
  | .inf, .fin _ => .inf
  | .ninf, .fin _ => .ninf
  | .inf, .inf => .inf
  | .ninf, .ninf => .ninf
  | _, _ => .nan

/-- Python float subtraction. -/
def pySub : PyF → PyF → PyF
  | .fin a, .fin b => .fin (a - b)
  | .fin _, .inf => .ninf
  | .fin _, .ninf => .inf
  | .inf, .fin _ => .inf
  | .ninf, .fin _ => .ninf
  | .inf, .ninf => .inf
  | .ninf, .inf => .ninf
  | _, _ => .nan

/-- Python `x / 1000.0`. -/
def pyDiv1000 : PyF → PyF
  | .fin a => .fin (Rat.div a 1000)
  | .inf => .inf
  | .ninf => .ninf
  | .nan => .nan

/-- Python `max(0.0, x)`: returns `x` exactly when `x > 0.0`. -/
def pyMax0 (x : PyF) : PyF := if pyLt (.fin 0) x then x else .fin 0

/-- Non-negativity of a Python float (`nan` and `-inf` are not
non-negative). -/
def pyNonneg : PyF → Bool
  | .fin q => 0 ≤ q
  | .inf => true
  | _ => false

/-- Floor of a rational, computed with floor division (kernel-reducible,
unlike the `FloorRing` projection; they agree — see `ratFloor_eq_floor`). -/
def ratFloor (q : ℚ) : ℤ := Int.fdiv q.num q.den

/-- Truncation toward zero used by Python `int(x)` on a float; raises
(`none`) on the non-finite values. -/
def pyTrunc : PyF → Option ℤ
  | .fin q => some (Int.tdiv q.num q.den)
  | _ => none

/-! ### `float(s)` on strings -/

/-- Lower-casing for the ASCII letters involved in float literals. -/
def lowerCh (c : Char) : Char :=
  if 65 ≤ c.toNat && c.toNat ≤ 90 then Char.ofNat (c.toNat + 32) else c

/-- IEEE-754 double overflow bound, used to model `float(s)` returning
infinity on huge literals (the exact rounding cutoff is not modelled). -/
def pyFloatMax : ℚ := ((2 ^ 1024 : ℕ) : ℚ)

/-- Powers of ten as rationals (via the accelerated `Nat` power). -/
def pow10 (n : ℕ) : ℚ := ((10 ^ n : ℕ) : ℚ)

/-- Parse the digits-and-fraction part of a float literal:
`digits`, `digits.digits`, `digits.`, `.digits`. -/
def parseDecMantissa (l : List Char) : Option ℚ :=
  match splitOnCh '.' l with
  | [ds] =>
    if ds ≠ [] && ds.all isDigitCh then some ((parseDigits ds : ℚ)) else none
  | [ds, fs] =>
    if (ds ≠ [] || fs ≠ []) && ds.all isDigitCh && fs.all isDigitCh then
      some ((parseDigits ds : ℚ) + Rat.div (parseDigits fs : ℚ) (pow10 fs.length))
    else none
  | _ => none

/-- Parse an optional exponent suffix; returns the split of the literal at
`e`/`E` when present. -/
def splitExp (l : List Char) : List Char × Option (List Char) :=
  match l.span (fun c => lowerCh c ≠ 'e') with
  | (m, []) => (m, none)
  | (m, _ :: e) => (m, some e)

/-- Parse a signed exponent (digits with optional sign). -/
def parseExp (l : List Char) : Option ℤ :=
  match l with
  | '+' :: ds => if ds ≠ [] && ds.all isDigitCh then some (parseDigits ds) else none
  | '-' :: ds => if ds ≠ [] && ds.all isDigitCh then some (-(parseDigits ds : ℤ)) else none
  | ds => if ds ≠ [] && ds.all isDigitCh then some (parseDigits ds) else none

/-- The unsigned body of `float(s)`: `inf`, `infinity`, `nan`, or a decimal
mantissa with optional exponent. -/
def pyFloatBody (l : List Char) : Option PyF :=
  let low := l.map lowerCh
  if low = "inf".data || low = "infinity".data then some .inf
  else if low = "nan".data then some .nan
  else
    match splitExp l with
    | (m, none) => (parseDecMantissa m).map .fin
    | (m, some e) => do
      let mv ← parseDecMantissa m
      let ev ← parseExp e
      pure (.fin (match ev with
        | .ofNat n => mv * pow10 n
        | .negSucc n => Rat.div mv (pow10 (n + 1))))

/-- Overflow to infinity for finite magnitudes at or beyond the double
range. -/
def pyOverflow : PyF → PyF
  | .fin q => if q ≥ pyFloatMax then .inf else if q ≤ -pyFloatMax then .ninf else .fin q
  | x => x

/-- Python `float(s)`: optional whitespace and sign around the body.
`none` means `float` raises `ValueError`. -/
def pyFloatOfStr (l : List Char) : Option PyF :=
  let t := pyStrip l
  match t with
  | '+' :: b => (pyFloatBody b).map pyOverflow
  | '-' :: b =>
    (pyFloatBody b).map fun v =>
      match pyOverflow v with
      | .fin q => .fin (-q)
      | .inf => .ninf
      | .ninf => .inf
      | .nan => .nan
  | b => (pyFloatBody b).map pyOverflow

/-- Banker's rounding, as used by Python `round(x)` on a finite float. -/
def pyRound (q : ℚ) : ℤ :=
  let f := ratFloor q
  let r := q - (f : ℚ)
  if r < Rat.div 1 2 then f
  else if r > Rat.div 1 2 then f + 1
  else if f % 2 = 0 then f else f + 1

/-- Python `float(z)` on an int: unlike the string conversion (which
returns infinity), the int-to-float conversion raises `OverflowError`
(`none`) beyond the double range.  As in `pyOverflow`, the exact rounding
cutoff is idealised to the overflow bound. -/
def pyFloatOfInt (z : ℤ) : Option PyF :=
  if (z : ℚ) ≥ pyFloatMax ∨ (z : ℚ) ≤ -pyFloatMax then none
  else some (.fin ((z : ℚ)))

/-! ## video_pipeline: timestamp codec -/

namespace video_pipeline

/-- Zero-padded two-digit rendering, Python `f"{n:02d}"` for `n ≥ 0`. -/
def pad2 (n : ℕ) : List Char :=
  if n < 10 then '0' :: natToChars n else natToChars n

/-- Source: `video_pipeline.format_timestamp`.  `round()` raises on the
non-finite floats (`OverflowError` on infinities, `ValueError` on `nan`),
modelled as `none`; on a finite value it rounds to whole seconds, clamps
negatives to 0 (`max(0, ...)` is `Int.toNat` here), and renders zero-padded
`HH:MM:SS`. -/
def format_timestamp (seconds : PyF) : Option (List Char) :=
  match seconds with
  | .fin q =>
    let value : ℕ := (pyRound q).toNat
    let hour := value / 3600
    let minute := (value % 3600) / 60
    let second := value % 60
    some (pad2 hour ++ ':' :: pad2 minute ++ ':' :: pad2 second)
  | _ => none

/-- The final regex fallback of the strict parser:
`re.match(r"^(\d+)(?:\.\d+)?$", raw)`, returning the leading integer group.
(The input has been stripped, so the `$`-before-final-newline subtlety of
Python cannot arise.) -/
def matchLeadingInt (l : List Char) : Option ℕ :=
  let ds := l.takeWhile isDigitCh
  let rest := l.drop ds.length
  if ds = [] then none
  else
    match rest with
    | [] => some (parseDigits ds)
    | '.' :: fs => if fs ≠ [] && fs.all isDigitCh then some (parseDigits ds) else none
    | _ => none

/-- Source: `video_pipeline.parse_timestamp_to_seconds`, string branch
(the numeric branch just clamps with `max`).  Returns `none` where the
Python function raises.  The digit fast path and the regex fallback apply
the string-to-float conversion `float(raw)` / `float(match.group(1))`,
which overflows to infinity; the colon branches apply the int-to-float
conversion `float(int(...) * ... + int(...))`, which raises
`OverflowError` (`pyFloatOfInt`) beyond the double range. -/
def parse_timestamp_to_seconds (timestamp : List Char) : Option PyF :=
  let raw := pyStrip timestamp
  if raw = [] then some (.fin 0)
  else if pyIsDigit raw then some (pyOverflow (.fin ((parseDigits raw : ℚ))))
  else
    match splitCols raw with
    | [m, s] => do
      let mv ← pyInt m
      let sv ← pyInt s
      pyFloatOfInt (mv * 60 + sv)
    | [h, m, s] => do
      let hv ← pyInt h
      let mv ← pyInt m
      let sv ← pyInt s
      pyFloatOfInt (hv * 3600 + mv * 60 + sv)
    | _ => (matchLeadingInt raw).map fun n => pyOverflow (.fin ((n : ℚ)))

/-- Source: `video_pipeline.clamp_timestamp`. -/
def clamp_timestamp (seconds : ℚ) (video_duration_seconds : Option ℚ) : ℚ :=
  match video_duration_seconds with
  | none => max 0 seconds
  | some d =>
    if d ≤ 0 then max 0 seconds
    else if seconds ≥ d then max 0 (d - 1)
    else max 0 seconds

end video_pipeline

/-! ## Decoded JSON / duck-typed Python values

`json.loads` output and the loosely-typed dict entries flowing through the
adapters are modelled by `JValue`.  (Python's `json` also accepts the
non-finite literals `Infinity`/`NaN`; those are not modelled as JSON
values.) -/

/-- A decoded JSON / dynamic Python value. -/
inductive JValue where
  | null
  | bool (b : Bool)
  | int (z : ℤ)
  | float (q : ℚ)
  | str (s : List Char)
  | arr (xs : List JValue)
  | obj (kvs : List (List Char × JValue))

/-- Key lookup in a decoded dict (keys are unique in a Python dict). -/
def assocGet (kvs : List (List Char × JValue)) (key : List Char) : Option JValue :=
  match kvs with
  | [] => none
  | (k, v) :: rest => if k = key then some v else assocGet rest key

/-- Python `dict.get(key)`: `None` when absent. -/
def jGetD (kvs : List (List Char × JValue)) (key : List Char) : JValue :=
  (assocGet kvs key).getD .null

/-- Python truthiness of a value. -/
def jTruthy : JValue → Bool
  | .null => false
  | .bool b => b
  | .int z => z ≠ 0
  | .float q => q ≠ 0
  | .str s => s ≠ []
  | .arr xs => !xs.isEmpty
  | .obj kvs => !kvs.isEmpty

/-- Python `a or b` on values. -/
def pyOr (a b : JValue) : JValue := if jTruthy a then a else b

/-- Decimal expansion of a fractional part `0 ≤ q < 1`, up to `fuel`
digits. -/
def fracDigits (q : ℚ) (fuel : ℕ) : List Char :=
  match fuel with
  | 0 => []
  | fuel + 1 =>
    if q = 0 then []
    else digitCh (ratFloor (q * 10)).toNat :: fracDigits (q * 10 - (ratFloor (q * 10) : ℚ)) fuel

/-- Python `str()` of a float value, modelled exactly for terminating
decimal expansions of at most 17 digits and truncated beyond that (Python
prints the shortest round-tripping decimal, which agrees on the inputs the
claims exercise). -/
def pyStrFloat (q : ℚ) : List Char :=
  let sign : List Char := if q < 0 then ['-'] else []
  let a := if q < 0 then -q else q
  let frac := a - (ratFloor a : ℚ)
  sign ++ natToChars (ratFloor a).toNat ++ '.' ::
    (if frac = 0 then ['0'] else fracDigits frac 17)

/-- Python `str()` of a value (only the scalar shapes that reach `str()` in
the embedded code are rendered precisely). -/
def pyStr : JValue → List Char
  | .null => ("None").data
  | .bool true => ("True").data
  | .bool false => ("False").data
  | .int z => intToChars z
  | .float q => pyStrFloat q
  | .str s => s
  | .arr _ => ("[...]").data
  | .obj _ => ("{...}").data

/-! ## audio_transcriber: lenient timestamp codec -/

namespace audio_transcriber

/-- Source: `audio_transcriber._is_number`. -/
def _is_number (l : List Char) : Bool := (pyFloatOfStr l).isSome

/-- Match of `\d{1,2}:\d{2}:\d{2}` with the maximal two leading digits, as
the backtracking engine tries first. -/
def tsLong2 : List Char → Option (List Char)
  | a :: b :: ':' :: c :: d :: ':' :: e :: f :: _ =>
    if isDigitCh a && isDigitCh b && isDigitCh c && isDigitCh d
        && isDigitCh e && isDigitCh f then
      some [a, b, ':', c, d, ':', e, f]
    else none
  | _ => none

/-- Match of `\d{1,2}:\d{2}:\d{2}` with a single leading digit. -/
def tsLong1 : List Char → Option (List Char)
  | a :: ':' :: c :: d :: ':' :: e :: f :: _ =>
    if isDigitCh a && isDigitCh c && isDigitCh d && isDigitCh e && isDigitCh f then
      some [a, ':', c, d, ':', e, f]
    else none
  | _ => none

/-- Match of `\d{1,2}:\d{2}` with two leading digits. -/
def tsShort2 : List Char → Option (List Char)
  | a :: b :: ':' :: c :: d :: _ =>
    if isDigitCh a && isDigitCh b && isDigitCh c && isDigitCh d then
      some [a, b, ':', c, d]
    else none
  | _ => none

/-- Match of `\d{1,2}:\d{2}` with a single leading digit. -/
def tsShort1 : List Char → Option (List Char)
  | a :: ':' :: c :: d :: _ =>
    if isDigitCh a && isDigitCh c && isDigitCh d then
      some [a, ':', c, d]
    else none
  | _ => none

/-- Attempt of `(\d{1,2}:\d{2}:\d{2}|\d{1,2}:\d{2})` anchored at the head of
the list, in the backtracking engine's preference order: first alternative
before second, greedy `\d{1,2}` (two digits before one). -/
def matchTsAt (l : List Char) : Option (List Char) :=
  match tsLong2 l with
  | some m => some m
  | none =>
    match tsLong1 l with
    | some m => some m
    | none =>
      match tsShort2 l with
      | some m => some m
      | none => tsShort1 l

/-- Source: the `re.search(r"(\d{1,2}:\d{2}:\d{2}|\d{1,2}:\d{2})", raw)`
call in `audio_transcriber._parse_timestamp_to_seconds`: leftmost attempt
position wins. -/
def regexSearchTs (l : List Char) : Option (List Char) :=
  match l with
  | [] => none
  | _ :: rest =>
    match matchTsAt l with
    | some m => some m
    | none => regexSearchTs rest

/-- Source: `audio_transcriber._parse_timestamp_to_seconds` (the lenient
codec).  `none` means the Python function raises (which happens exactly
when `int(float(p))` meets a non-finite value). -/
def _parse_timestamp_to_seconds (value : JValue) : Option PyF :=
  let raw := pyStrip (pyStr (pyOr value (.str [])))
  if raw = [] then some (.fin 0)
  else if pyIsDigit raw then some (.fin (parseDigits raw))
  else
    let raw2 :=
      match regexSearchTs raw with
      | some m => m
      | none => raw
    match splitCols raw2 with
    | [p0, p1] =>
      if _is_number p0 && _is_number p1 then do
        let f0 ← pyFloatOfStr p0
        let mv ← pyTrunc f0
        let sv ← pyFloatOfStr p1
        pure (pyAdd (.fin ((mv : ℚ) * 60)) sv)
      else some (.fin 0)
    | [p0, p1, p2] =>
      if _is_number p0 && _is_number p1 && _is_number p2 then do
        let f0 ← pyFloatOfStr p0
        let hv ← pyTrunc f0
        let f1 ← pyFloatOfStr p1
        let mv ← pyTrunc f1
        let sv ← pyFloatOfStr p2
        pure (pyAdd (.fin ((hv : ℚ) * 3600 + (mv : ℚ) * 60)) sv)
      else some (.fin 0)
    | _ => some (.fin 0)

/-! ## audio_transcriber: model-response adapter -/

/-- One entry of the adapter's output list (a dict with keys
`start`/`duration`/`text` in the source). -/
structure AdapterSeg where
  start : PyF
  duration : PyF
  text : List Char
  deriving DecidableEq, Repr

/-- The comparison driving `parsed.sort(key=lambda item: item["start"])`:
stable sort placing `a` before `b` unless `b.start < a.start`.  For finite
keys this is exactly CPython's stable sort; for `nan` keys CPython's exact
order is not modelled (the claims only concern finite keys). -/
def adapterLe (a b : AdapterSeg) : Prop := pyLt b.start a.start = false

instance : DecidableRel adapterLe := fun _ _ => instDecidableEqBool _ _

/-- The entry-collection loop of
`audio_transcriber._parse_transcribe_response`: alias resolution, text
normalization, lenient timestamp parse, initial duration `0.0`. -/
def collectEntries : List JValue → Option (List AdapterSeg)
  | [] => some []
  | item :: rest =>
    match item with
    | .obj kvs =>
      let timestamp_raw :=
        pyOr (jGetD kvs ("timestamp").data)
          (pyOr (jGetD kvs ("time").data)
            (pyOr (jGetD kvs ("start").data)
              (pyOr (jGetD kvs ("start_time").data) (.str []))))
      let text_raw :=
        pyOr (jGetD kvs ("text").data)
          (pyOr (jGetD kvs ("content").data)
            (pyOr (jGetD kvs ("transcript").data) (.str [])))
      let segment_text := pyStrip (replaceNl (pyStr text_raw))
      if segment_text = [] then collectEntries rest
      else do
        let s ← _parse_timestamp_to_seconds timestamp_raw
        let tail ← collectEntries rest
        pure ({ start := s, duration := .fin 0, text := segment_text } :: tail)
    | _ => collectEntries rest

/-- The duration back-fill loop: each segment's duration becomes
`max(0, next.start - this.start)`; the final segment gets `8.0`. -/
def backfill : List AdapterSeg → List AdapterSeg
  | [] => []
  | [a] => [{ a with duration := .fin 8 }]
  | a :: b :: rest =>
    { a with duration := pyMax0 (pySub b.start a.start) } :: backfill (b :: rest)

/-- Source: `audio_transcriber._parse_transcribe_response`, starting from
the decoded payload dict (`_extract_json_payload`, the fence-stripping and
`json.loads` front half, is modelled as the already-decoded key/value
list; it always produces a dict).  `none` means the Python code raises. -/
def _parse_transcribe_response (payload : List (List Char × JValue)) :
    Option (List AdapterSeg) :=
  match assocGet payload ("segments").data with
  | some (.arr items) => do
    let parsed ← collectEntries items
    if parsed = [] then pure []
    else pure (backfill (List.insertionSort adapterLe parsed))
  | _ => some []

end audio_transcriber

/-! ## video_pipeline: segments, text normalization helpers -/

namespace video_pipeline

/-- Source: the `TranscriptSegment` dataclass. -/
structure TranscriptSegment where
  start : PyF
  duration : PyF
  text : List Char
  deriving DecidableEq, Repr

/-- Python `html.unescape`, modelled for the common entities (`&amp;`,
`&lt;`, `&gt;`, `&quot;`, `&apos;`, `&#39;`, `&#10;`, `&nbsp;`); the full
HTML5 entity table is not reproduced.  The claims never depend on which
entities are decoded, only on the sanitisation applied afterwards. -/
def html_unescape : List Char → List Char
  | [] => []
  | '&' :: 'a' :: 'm' :: 'p' :: ';' :: rest => '&' :: html_unescape rest
  | '&' :: 'l' :: 't' :: ';' :: rest => '<' :: html_unescape rest
  | '&' :: 'g' :: 't' :: ';' :: rest => '>' :: html_unescape rest
  | '&' :: 'q' :: 'u' :: 'o' :: 't' :: ';' :: rest => Char.ofNat 34 :: html_unescape rest
  | '&' :: 'a' :: 'p' :: 'o' :: 's' :: ';' :: rest => Char.ofNat 39 :: html_unescape rest
  | '&' :: '#' :: '3' :: '9' :: ';' :: rest => Char.ofNat 39 :: html_unescape rest
  | '&' :: '#' :: '1' :: '0' :: ';' :: rest => '\n' :: html_unescape rest
  | '&' :: 'n' :: 'b' :: 's' :: 'p' :: ';' :: rest => Char.ofNat 160 :: html_unescape rest
  | c :: rest => c :: html_unescape rest

/-- Python `re.sub(r"<[^>]+>", "", text)`: a state machine that buffers a
candidate tag after `<` and drops it when a `>` closes a nonempty body. -/
def stripTagsAux : List Char → Option (List Char) → List Char
  | [], none => []
  | [], some buf => '<' :: buf.reverse
  | c :: rest, none =>
    if c = '<' then stripTagsAux rest (some [])
    else c :: stripTagsAux rest none
  | c :: rest, some buf =>
    if c = '>' then
      if buf = [] then '<' :: '>' :: stripTagsAux rest none
      else stripTagsAux rest none
    else stripTagsAux rest (some (c :: buf))

/-- Markup-tag removal used by the VTT parser. -/
def stripTags (l : List Char) : List Char := stripTagsAux l none

/-! ## video_pipeline: orchestrator `fetch_transcript` -/

/-- Identity of the exception raised by the primary API fetch (strategy 1);
only its identity matters to the claims. -/
structure ApiErr where
  id : ℕ
  deriving DecidableEq, Repr

/-- One raw dict from `fetched.to_raw_data()`; `none` fields model absent
keys (the `.get` defaults are applied in `primaryNormalize`). -/
structure RawSeg where
  text : Option JValue
  start : Option JValue
  duration : Option JValue

/-- Python `float(x)` applied to a dynamic value; `none` models the
`ValueError`/`TypeError` raises. -/
def pyFloatOfJ : JValue → Option PyF
  | .int z => some (.fin z)
  | .float q => some (.fin q)
  | .bool b => some (.fin (if b then 1 else 0))
  | .str s => pyFloatOfStr s
  | _ => none

/-- The normalization loop of `fetch_transcript` over the primary API's raw
segments (lines 78–89): collapse newlines, strip, drop empty text, convert
times with `float` (which can raise — hence `Option`; note the code applies
no clamping here). -/
def primaryNormalize : List RawSeg → Option (List TranscriptSegment)
  | [] => some []
  | item :: rest =>
    let text := pyStrip (replaceNl (pyStr (item.text.getD (.str []))))
    if text = [] then primaryNormalize rest
    else do
      let s ← pyFloatOfJ (item.start.getD (.float 0))
      let d ← pyFloatOfJ (item.duration.getD (.float 0))
      let tail ← primaryNormalize rest
      pure ({ start := s, duration := d, text := text } :: tail)

/-- The loop of `_fetch_transcript_via_gemini` over the adapter's raw
segments (each is a dict with keys `start`/`duration`/`text`, so the
`isinstance` guard always passes and the `float` conversions are identity
on the stored float values). -/
def geminiLoop : List audio_transcriber.AdapterSeg → List TranscriptSegment
  | [] => []
  | item :: rest =>
    let text := pyStrip (replaceNl item.text)
    if text = [] then geminiLoop rest
    else { start := item.start, duration := item.duration, text := text } :: geminiLoop rest

/-- Source: `video_pipeline._fetch_transcript_via_gemini`, taking the raw
segment list returned by `transcribe_video_audio_with_gemini`. -/
def _fetch_transcript_via_gemini (raw_segments : List audio_transcriber.AdapterSeg) :
    List TranscriptSegment :=
  if raw_segments = [] then [] else geminiLoop raw_segments

/-- The terminal errors `fetch_transcript` itself raises. -/
inductive FetchErr where
  | unavailable (cause : ApiErr)
  | transcriptEmpty
  deriving DecidableEq, Repr

/-- Source: `video_pipeline.fetch_transcript`.  External effects are passed
as values: `api` is the outcome of the strategy-1 `YouTubeTranscriptApi`
fetch, `ytdlp_segments` the return of `_fetch_transcript_via_ytdlp`
(strategy 2, which swallows its internal errors and returns `[]`), and
`gemini_raw` the return of `transcribe_video_audio_with_gemini`
(strategy 3).  The outer `none` models an exception escaping
`fetch_transcript` other than its own two `RuntimeError`s. -/
def fetch_transcript (api : Except ApiErr (List RawSeg))
    (ytdlp_segments : List TranscriptSegment)
    (gemini_raw : List audio_transcriber.AdapterSeg)
    (youtube_url : Option (List Char)) :
    Option (Except FetchErr (List TranscriptSegment)) :=
  match api with
  | .error exc =>
    if ytdlp_segments ≠ [] then some (.ok ytdlp_segments)
    else
      match youtube_url with
      | some u =>
        if u ≠ [] then
          let g := _fetch_transcript_via_gemini gemini_raw
          if g ≠ [] then some (.ok g) else some (.error (.unavailable exc))
        else some (.error (.unavailable exc))
      | none => some (.error (.unavailable exc))
  | .ok raw_segments =>
    match primaryNormalize raw_segments with
    | none => none
    | some segs =>
      if segs = [] then some (.error .transcriptEmpty) else some (.ok segs)

/-! ## video_pipeline: json3 parser -/

/-- Text assembly for one json3 event: concatenate the `utf8` fields of the
dict entries of `segs`. -/
def json3Text : List JValue → List Char
  | [] => []
  | .obj pkvs :: rest => pyStr ((assocGet pkvs ("utf8").data).getD (.str [])) ++ json3Text rest
  | _ :: rest => json3Text rest

/-- The event loop of `_parse_json3_transcript`: non-dict events and
non-list `segs` are skipped, empty text is skipped, and the millisecond
fields go through `float(... or 0)` — which raises (`none`) on values
`float` cannot convert. -/
def json3Events : List JValue → Option (List TranscriptSegment)
  | [] => some []
  | ev :: rest =>
    match ev with
    | .obj kvs =>
      match pyOr (jGetD kvs ("segs").data) (.arr []) with
      | .arr parts =>
        let text := pyStrip (replaceNl (html_unescape (json3Text parts)))
        if text = [] then json3Events rest
        else do
          let start_ms ← pyFloatOfJ (pyOr (jGetD kvs ("tStartMs").data) (.int 0))
          let duration_ms ← pyFloatOfJ (pyOr (jGetD kvs ("dDurationMs").data) (.int 0))
          let tail ← json3Events rest
          pure ({ start := pyMax0 (pyDiv1000 start_ms),
                  duration := pyMax0 (pyDiv1000 duration_ms),
                  text := text } :: tail)
      | _ => json3Events rest
    | _ => json3Events rest

/-- Source: `video_pipeline._parse_json3_transcript`, from the decoded
payload (`json.loads content`; `none` input models `JSONDecodeError`,
which the source catches and turns into `[]`).  A non-dict payload makes
`payload.get` raise `AttributeError` (outer `none`). -/
def _parse_json3_transcript (payload : Option JValue) : Option (List TranscriptSegment) :=
  match payload with
  | none => some []
  | some (.obj kvs) =>
    match assocGet kvs ("events").data with
    | some (.arr events) => json3Events events
    | _ => some []
  | some _ => none

/-! ## video_pipeline: VTT parser -/

/-- Blank-line block splitting, `re.split(r"\n\s*\n", content)`: at each
newline whose following whitespace run contains another newline, the match
extends greedily to the last newline of the run. -/
def splitBlocksAux : List Char → List Char → List (List Char)
  | acc, [] => [acc.reverse]
  | acc, c :: rest =>
    if c = '\n' then
      let ws := rest.takeWhile isPyWs
      if '\n' ∈ ws then
        let keep := (ws.reverse.takeWhile (fun d => d ≠ '\n')).length
        acc.reverse :: splitBlocksAux [] (rest.drop (ws.length - keep))
      else splitBlocksAux ('\n' :: acc) rest
    else splitBlocksAux (c :: acc) rest
  termination_by _ l => l.length
  decreasing_by
    all_goals simp [List.length_drop]
    all_goals omega

/-- Split a caption file into cue blocks. -/
def splitBlocks (l : List Char) : List (List Char) := splitBlocksAux [] l

/-- Python `"-->" in s`. -/
def hasArrow : List Char → Bool
  | '-' :: '-' :: '>' :: _ => true
  | _ :: rest => hasArrow rest
  | [] => false

/-- Python `s.split("-->", 1)` when an arrow is present: the pieces before
and after the first `-->`. -/
def splitArrow1 : List Char → List Char × List Char
  | '-' :: '-' :: '>' :: rest => ([], rest)
  | c :: rest =>
    let p := splitArrow1 rest
    (c :: p.1, p.2)
  | [] => ([], [])

/-- Source: `video_pipeline._parse_vtt_time`: comma becomes dot, then
`MM:SS` or `HH:MM:SS` with integer leading fields and a float seconds
field; anything else raises (`none`). -/
def _parse_vtt_time (value : List Char) : Option PyF :=
  let normalized := value.map fun c => if c = ',' then '.' else c
  match splitCols normalized with
  | [m, s] => do
    let mv ← pyInt m
    let sv ← pyFloatOfStr s
    pure (pyAdd (.fin ((mv : ℚ) * 60)) sv)
  | [h, m, s] => do
    let hv ← pyInt h
    let mv ← pyInt m
    let sv ← pyFloatOfStr s
    pure (pyAdd (.fin ((hv : ℚ) * 3600 + (mv : ℚ) * 60)) sv)
  | _ => none

/-- Parse of one VTT cue block: returns `none` when the block is skipped
(no lines, no time range, no text lines, unparseable times, empty cleaned
text). -/
def vttBlock (block : List Char) : Option TranscriptSegment :=
  let lines := ((splitOnCh '\n' block).map pyStrip).filter (fun x => x ≠ [])
  match lines with
  | [] => none
  | l0 :: _ =>
    let time_idx := if hasArrow l0 then 0 else 1
    match lines.drop time_idx with
    | [] => none
    | tline :: text_lines =>
      if !hasArrow tline then none
      else if text_lines = [] then none
      else
        let pieces := splitArrow1 tline
        let start_raw := pyStrip pieces.1
        let end_raw := pyStrip pieces.2
        match _parse_vtt_time start_raw,
              _parse_vtt_time ((splitOnCh ' ' end_raw).headD []) with
        | some start, some stop =>
          let text := List.intercalate [' '] text_lines
          let text := pyStrip (replaceNl (html_unescape (stripTags text)))
          if text = [] then none
          else some { start := pyMax0 start,
                      duration := pyMax0 (pySub stop start),
                      text := text }
        | _, _ => none

/-- Source: `video_pipeline._parse_vtt_transcript`: split into blocks
(after removing `\r`), parse each block, skip the ones that fail. -/
def _parse_vtt_transcript (content : List Char) : List TranscriptSegment :=
  (splitBlocks (content.filter (fun c => c ≠ '\r'))).filterMap vttBlock

/-! ## video_pipeline: source selector -/

/-- Source: the `CaptionTrackCandidate` dicts built by
`_collect_caption_tracks`. -/
structure CaptionCand where
  url : List Char
  ext : List Char
  language_score : ℕ
  source_priority : ℕ
  ext_priority : ℕ
  deriving DecidableEq, Repr

/-- The `ext_priority` table (`json3`, `vtt`, `srv3`, `ttml`, `xml`,
default 99). -/
def ext_priority_of (ext : List Char) : ℕ :=
  if ext = ("json3").data then 0
  else if ext = ("vtt").data then 1
  else if ext = ("srv3").data then 2
  else if ext = ("ttml").data then 3
  else if ext = ("xml").data then 4
  else 99

/-- Index of the last occurrence of `x` (the value
`{lang: idx for idx, lang in enumerate(preferred_langs)}` stores, since
later duplicates overwrite earlier ones). -/
def lastIdx (x : List Char) : List (List Char) → Option ℕ
  | [] => none
  | y :: ys =>
    match lastIdx x ys with
    | some i => some (i + 1)
    | none => if y = x then some 0 else none

/-- The `language_score`: `lang_order.get(lang, len(lang_order) + 1)` where
`lang_order` is the dict above (so the default is the number of distinct
preferred languages plus one). -/
def langScore (preferred : List (List Char)) (lang : List Char) : ℕ :=
  match lastIdx lang preferred with
  | some i => i
  | none => preferred.dedup.length + 1

/-- Candidates harvested from the item list of one language. -/
def candsOfItems (ls sp : ℕ) (items : List JValue) : List CaptionCand :=
  items.filterMap fun it =>
    match it with
    | .obj kvs =>
      let track_url := pyStrip (pyStr (pyOr (jGetD kvs ("url").data) (.str [])))
      let ext := (pyStrip (pyStr (pyOr (jGetD kvs ("ext").data) (.str [])))).map lowerCh
      if track_url = [] || ext = [] then none
      else some { url := track_url, ext := ext, language_score := ls,
                  source_priority := sp, ext_priority := ext_priority_of ext }
    | _ => none

/-- Candidates harvested from one origin's language→items dict, in dict
iteration order; `score` ranks a language. -/
def candsOfEntries (score : List Char → ℕ) (sp : ℕ) :
    List (List Char × JValue) → List CaptionCand
  | [] => []
  | (lang, items) :: rest =>
    (match items with
     | .arr its => candsOfItems (score lang) sp its
     | _ => []) ++ candsOfEntries score sp rest

/-- The unsorted candidate list for a given language-scoring function:
human `subtitles` (priority 0) first, then `automatic_captions`
(priority 1), skipping non-dict sources. -/
def collectCandsWith (score : List Char → ℕ) (info : List (List Char × JValue)) :
    List CaptionCand :=
  (match pyOr (jGetD info ("subtitles").data) (.obj []) with
   | .obj es => candsOfEntries score 0 es
   | _ => []) ++
  (match pyOr (jGetD info ("automatic_captions").data) (.obj []) with
   | .obj es => candsOfEntries score 1 es
   | _ => [])

/-- The unsorted candidate list exactly as the source builds it. -/
def collectRawCands (info : List (List Char × JValue)) (preferred : List (List Char)) :
    List CaptionCand :=
  collectCandsWith (langScore preferred) info

/-- The sort key tuple. -/
def candKey (c : CaptionCand) : ℕ × ℕ × ℕ :=
  (c.language_score, c.source_priority, c.ext_priority)

/-- Lexicographic order on key triples, as Python compares tuples. -/
def tripleLe (x y : ℕ × ℕ × ℕ) : Prop :=
  x.1 < y.1 ∨ (x.1 = y.1 ∧ (x.2.1 < y.2.1 ∨ (x.2.1 = y.2.1 ∧ x.2.2 ≤ y.2.2)))

instance : DecidableRel tripleLe := fun _ _ => by unfold tripleLe; infer_instance

/-- Candidate comparison used by `candidates.sort(key=...)`. -/
def candLe (a b : CaptionCand) : Prop := tripleLe (candKey a) (candKey b)

instance : DecidableRel candLe := fun _ _ => by unfold candLe; infer_instance

/-- Source: `video_pipeline._collect_caption_tracks` (`info` is the yt-dlp
info dict): harvest, then stable sort by (language score, source priority,
ext priority). -/
def _collect_caption_tracks (info : List (List Char × JValue))
    (preferred : List (List Char)) : List CaptionCand :=
  List.insertionSort candLe (collectRawCands info preferred)

end video_pipeline

/-! ## Spec-side definitions

These follow the wording of the specification claims (not the source) and
are compared against the source-derived definitions above. -/

/-- Index of the first occurrence (the ordinary notion of "index in the
list" used by the spec). -/
def firstIdx (x : List Char) : List (List Char) → Option ℕ
  | [] => none
  | y :: ys => if y = x then some 0 else (firstIdx x ys).map (· + 1)

/-- Spec wording: a language's rank is "its index in the preferred list, or
`len(list)+1` if unlisted". -/
def specLangRank (preferred : List (List Char)) (lang : List Char) : ℕ :=
  (firstIdx lang preferred).getD (preferred.length + 1)

/-- The selector as the spec describes it: same harvesting and same stable
sort, but languages ranked by first index / `len(list)+1`. -/
def specCollect (info : List (List Char × JValue)) (preferred : List (List Char)) :
    List video_pipeline.CaptionCand :=
  List.insertionSort video_pipeline.candLe
    (video_pipeline.collectCandsWith (specLangRank preferred) info)

/-- Spec wording for the duration back-fill: each non-final segment's
duration is `max(0, next.start − this.start)`; the final one gets `8.0`. -/
inductive BackfilledOk : List audio_transcriber.AdapterSeg → Prop where
  | nil : BackfilledOk []
  | single (a : audio_transcriber.AdapterSeg) :
      a.duration = .fin 8 → BackfilledOk [a]
  | cons (a b : audio_transcriber.AdapterSeg) (l : List audio_transcriber.AdapterSeg) :
      a.duration = pyMax0 (pySub b.start a.start) →
      BackfilledOk (b :: l) → BackfilledOk (a :: b :: l)

/-- An embedded `MM:SS` / `HH:MM:SS` occurrence as matched by the lenient
codec's regex: one or two hour/minute digits, two-digit lower fields. -/
def isTsPat (p : List Char) : Bool :=
  match p with
  | [a, b, ':', c, d, ':', e, f] =>
    isDigitCh a && isDigitCh b && isDigitCh c && isDigitCh d && isDigitCh e && isDigitCh f
  | [a, ':', c, d, ':', e, f] =>
    isDigitCh a && isDigitCh c && isDigitCh d && isDigitCh e && isDigitCh f
  | [a, b, ':', c, d] => isDigitCh a && isDigitCh b && isDigitCh c && isDigitCh d
  | [a, ':', c, d] => isDigitCh a && isDigitCh c && isDigitCh d
  | _ => false

/-- The seconds value of an embedded timestamp pattern, per the spec's
reading (`HH*3600 + MM*60 + SS`, or `MM*60 + SS` for the short form). -/
def tsPatVal (p : List Char) : ℚ :=
  match p with
  | [a, b, ':', c, d, ':', e, f] =>
    ((10 * digitVal a + digitVal b) * 3600 + (10 * digitVal c + digitVal d) * 60
      + (10 * digitVal e + digitVal f) : ℕ)
  | [a, ':', c, d, ':', e, f] =>
    (digitVal a * 3600 + (10 * digitVal c + digitVal d) * 60
      + (10 * digitVal e + digitVal f) : ℕ)
  | [a, b, ':', c, d] =>
    ((10 * digitVal a + digitVal b) * 60 + (10 * digitVal c + digitVal d) : ℕ)
  | [a, ':', c, d] => (digitVal a * 60 + (10 * digitVal c + digitVal d) : ℕ)
  | _ => 0

/-- Valid whole-second timestamp strings in the sense of claim C8: a plain
digit string, `MM:SS`, or `HH:MM:SS` with all-digit components. -/
def ValidWholeTs (s : List Char) : Prop :=
  (s ≠ [] ∧ s.all isDigitCh = true) ∨
  (∃ m sec, s = m ++ ':' :: sec ∧ m ≠ [] ∧ m.all isDigitCh = true ∧
    sec ≠ [] ∧ sec.all isDigitCh = true) ∨
  (∃ h m sec, s = h ++ ':' :: m ++ ':' :: sec ∧ h ≠ [] ∧ h.all isDigitCh = true ∧
    m ≠ [] ∧ m.all isDigitCh = true ∧ sec ≠ [] ∧ sec.all isDigitCh = true)

/-- A json3 event whose (`or 0`-defaulted) millisecond fields survive
`float()`: such events never abort the parse. -/
def json3EventOk (ev : JValue) : Prop :=
  match ev with
  | .obj kvs =>
    (video_pipeline.pyFloatOfJ (pyOr (jGetD kvs ("tStartMs").data) (.int 0))).isSome = true ∧
    (video_pipeline.pyFloatOfJ (pyOr (jGetD kvs ("dDurationMs").data) (.int 0))).isSome = true
  | _ => True

/-- A json3 event the parser skips structurally: not a dict, `segs` not a
list, or empty normalized text (the skip happens before any `float`
conversion). -/
def json3Skippable (ev : JValue) : Prop :=
  match ev with
  | .obj kvs =>
    match pyOr (jGetD kvs ("segs").data) (.arr []) with
    | .arr parts =>
      pyStrip (replaceNl (video_pipeline.html_unescape (video_pipeline.json3Text parts))) = []
    | _ => True
  | _ => True

/-- The last character exists and is not whitespace (block-separation side
condition for the VTT locality theorem). -/
def endsNonWs (l : List Char) : Bool :=
  match l.getLast? with
  | some c => !isPyWs c
  | none => false

/-- The first character exists and is not whitespace. -/
def startsNonWs (l : List Char) : Bool :=
  match l.head? with
  | some c => !isPyWs c
  | none => false

/-! ## Concrete inputs used by counterexamples and witnesses -/

/-- A model-response entry dict with an integer `start` and a text. -/
def mkEntry (st : ℤ) (tx : List Char) : JValue :=
  .obj [(("start").data, .int st), (("text").data, .str tx)]

/-- The spec's adapter example: entries with starts 10, 0, 5. -/
def examplePayload : List (List Char × JValue) :=
  [(("segments").data,
    .arr [mkEntry 10 ("a").data, mkEntry 0 ("b").data, mkEntry 5 ("c").data])]

/-- A json3 event with both millisecond fields and one text fragment. -/
def mkEv (t d : JValue) (tx : List Char) : JValue :=
  .obj [(("tStartMs").data, t), (("dDurationMs").data, d),
        (("segs").data, .arr [.obj [(("utf8").data, .str tx)]])]

/-- A json3 payload whose middle event has a non-numeric `tStartMs`. -/
def json3BadPayload : JValue :=
  .obj [(("events").data,
    .arr [mkEv (.int 1500) (.int 2500) ("Hello").data,
          mkEv (.str ("abc").data) (.int 0) ("Bad").data,
          mkEv (.int 4000) (.int 1000) ("World").data])]

/-- A raw primary-API segment with the given text and integer times. -/
def mkRaw (tx : List Char) (st du : ℤ) : video_pipeline.RawSeg :=
  { text := some (.str tx), start := some (.int st), duration := some (.int du) }

/-- A non-empty transcript segment, used as a strategy-2 result in the C1
counterexample. -/
def goodSeg : video_pipeline.TranscriptSegment :=
  { start := .fin 0, duration := .fin 1, text := ('z') :: [] }

/-- A caption track item dict. -/
def mkTrk (u e : List Char) : JValue :=
  .obj [(("url").data, .str u), (("ext").data, .str e)]

/-- Selector counterexample input: human tracks for `en` and `fr`. -/
def dupInfo : List (List Char × JValue) :=
  [(("subtitles").data,
    .obj [(("en").data, .arr [mkTrk ("u1").data ("json3").data]),
          (("fr").data, .arr [mkTrk ("u2").data ("json3").data])])]

/-- A preferred-language list with a duplicated entry. -/
def dupPrefs : List (List Char) := [("en").data, ("fr").data, ("en").data]

/-! # Theorems -/

/-! ## C10: clamp_timestamp -/

/-- C10: `clamp_timestamp` equals `max 0 seconds` when the duration is
absent or non-positive, equals `max 0 (d − 1)` when `d > 0` and
`seconds ≥ d`, and always lands in `[0, d)` when `d > 0`. -/
theorem c10_clamp_timestamp (s d : ℚ) :
    video_pipeline.clamp_timestamp s none = max 0 s
    ∧ (d ≤ 0 → video_pipeline.clamp_timestamp s (some d) = max 0 s)
    ∧ (0 < d → s ≥ d → video_pipeline.clamp_timestamp s (some d) = max 0 (d - 1))
    ∧ (0 < d → 0 ≤ video_pipeline.clamp_timestamp s (some d)
        ∧ video_pipeline.clamp_timestamp s (some d) < d) := by
  refine ⟨rfl, fun hd => ?_, fun hd hs => ?_, fun hd => ?_⟩
  · simp [video_pipeline.clamp_timestamp, hd]
  · simp only [video_pipeline.clamp_timestamp]
    rw [if_neg (not_le.mpr hd), if_pos hs]
  · simp only [video_pipeline.clamp_timestamp]
    rw [if_neg (not_le.mpr hd)]
    by_cases hs : s ≥ d
    · rw [if_pos hs]
      exact ⟨le_max_left 0 _, max_lt hd (by linarith)⟩
    · rw [if_neg hs]
      exact ⟨le_max_left 0 _, max_lt hd (lt_of_not_ge hs)⟩

/-- Witness for C10 at `seconds = 100`, `duration = 60`. -/
theorem c10_clamp_timestamp_witness :
    (0 : ℚ) < 60 ∧ (0 ≤ video_pipeline.clamp_timestamp 100 (some 60)
      ∧ video_pipeline.clamp_timestamp 100 (some 60) < 60) :=
  ⟨by norm_num, (c10_clamp_timestamp 100 60).2.2.2 (by norm_num)⟩

/-! ## C2: exhausted strategies raise the strategy-1 cause -/

/-- C2: when strategy 1 raises `exc`, strategy 2 yields nothing, and
strategy 3 yields nothing or no source URL is available, `fetch_transcript`
fails with the transcript-unavailable error carrying exactly `exc` as its
cause. -/
theorem c2_unavailable_wraps_primary_cause (exc : video_pipeline.ApiErr)
    (gem : List audio_transcriber.AdapterSeg) (url : Option (List Char))
    (h3 : url = none ∨ url = some [] ∨ video_pipeline._fetch_transcript_via_gemini gem = []) :
    video_pipeline.fetch_transcript (.error exc) [] gem url
      = some (.error (.unavailable exc)) := by
  rcases h3 with rfl | rfl | hg
  · rfl
  · rfl
  · cases url with
    | none => rfl
    | some u =>
      by_cases hu : u = []
      · subst hu; rfl
      · simp [video_pipeline.fetch_transcript, hu, hg]

/-- Witness for C2 with a concrete strategy-1 error and no URL. -/
theorem c2_unavailable_wraps_primary_cause_witness :
    ((none : Option (List Char)) = none ∨ (none : Option (List Char)) = some []
      ∨ video_pipeline._fetch_transcript_via_gemini [] = [])
    ∧ video_pipeline.fetch_transcript (.error ⟨7⟩) [] [] none
      = some (.error (.unavailable ⟨7⟩)) :=
  ⟨Or.inl rfl, c2_unavailable_wraps_primary_cause ⟨7⟩ [] none (Or.inl rfl)⟩

/-! ## C1: empty-after-normalization primary result -/

/-- C1 counterexample: the primary fetch succeeds with one raw segment
whose text normalizes to empty; a non-empty strategy-2 result is available
and a source URL is present, yet `fetch_transcript` terminates with the
`Transcript is empty.` error instead of falling through to the
fallbacks. -/
theorem c1_counterexample :
    video_pipeline.fetch_transcript
        (.ok [mkRaw (' ' :: '\n' :: []) 1 2]) [goodSeg] [] (some (("u").data))
      = some (.error .transcriptEmpty) := by
  rfl

/-- C1 (amended): when strategy 1 returns raw segments that all normalize
to empty text, `fetch_transcript` raises the terminal transcript-empty
error — the fallback strategies are not consulted (the outcome is the same
for every fallback value) — and no path of `fetch_transcript` ever returns
an empty sequence as success. -/
theorem c1_empty_primary_terminates :
    (∀ raws ytdlp gem url, video_pipeline.primaryNormalize raws = some [] →
      video_pipeline.fetch_transcript (.ok raws) ytdlp gem url
        = some (.error .transcriptEmpty))
    ∧ (∀ api ytdlp gem url segs,
        video_pipeline.fetch_transcript api ytdlp gem url = some (.ok segs) →
        segs ≠ []) := by
  constructor
  · intro raws ytdlp gem url h
    simp [video_pipeline.fetch_transcript, h]
  · intro api ytdlp gem url segs h
    cases api with
    | error exc =>
      cases url with
      | none =>
        simp only [video_pipeline.fetch_transcript] at h
        by_cases hy : ytdlp = []
        · simp [hy] at h
        · rw [if_pos hy] at h
          simp at h
          subst h
          exact hy
      | some u =>
        simp only [video_pipeline.fetch_transcript] at h
        by_cases hy : ytdlp = []
        · subst hy
          have hcond : ¬(([] : List video_pipeline.TranscriptSegment) ≠ []) := by simp
          rw [if_neg hcond] at h
          by_cases hu : u = []
          · simp [hu] at h
          · rw [if_pos hu] at h
            by_cases hg : video_pipeline._fetch_transcript_via_gemini gem = []
            · simp [hg] at h
            · rw [if_pos hg] at h
              simp at h
              subst h
              exact hg
        · rw [if_pos hy] at h
          simp at h
          subst h
          exact hy
    | ok raws =>
      simp only [video_pipeline.fetch_transcript] at h
      cases hn : video_pipeline.primaryNormalize raws with
      | none => rw [hn] at h; simp at h
      | some s =>
        rw [hn] at h
        by_cases hs : s = []
        · simp [hs] at h
        · simp only [hs] at h
          simp at h
          subst h
          exact hs

/-- Witness for C1's amended universal parts at a concrete all-empty raw
list. -/
theorem c1_empty_primary_terminates_witness :
    video_pipeline.primaryNormalize [mkRaw (' ' :: '\n' :: []) 1 2] = some []
    ∧ video_pipeline.fetch_transcript (.ok [mkRaw (' ' :: '\n' :: []) 1 2])
        [goodSeg] [] none = some (.error .transcriptEmpty) :=
  ⟨by decide, c1_empty_primary_terminates.1 _ [goodSeg] [] none (by decide)⟩

/-! ## C9, C7: counterexamples -/

/-- C7 counterexample: the primary-API normalization loop passes a negative
`start` straight through, so a segment with `start = -1 < 0` escapes
`fetch_transcript` as success. -/
theorem c7_counterexample :
    video_pipeline.fetch_transcript (.ok [mkRaw (("hi").data) (-1) 0]) [] [] none
      = some (.ok [{ start := .fin (-1), duration := .fin 0, text := ("hi").data }])
    ∧ pyNonneg (.fin (-1)) = false := by
  exact ⟨by rfl, by rfl⟩

/-! ## C9: the lenient codec -/

/-- The head surviving `dropWhile` fails the predicate. -/
theorem dropWhile_head_not {p : Char → Bool} :
    ∀ {l c rest}, List.dropWhile p l = c :: rest → p c = false := by
  intro l
  induction l with
  | nil => intro c rest h; cases h
  | cons a as ih =>
    intro c rest h
    by_cases pa : p a = true
    · rw [List.dropWhile_cons, if_pos pa] at h; exact ih h
    · rw [List.dropWhile_cons, if_neg pa] at h
      injection h with h1 _
      subst h1
      exact Bool.not_eq_true _ ▸ pa

/-- Stripping only removes characters. -/
theorem mem_pyStrip {c : Char} {l : List Char} (h : c ∈ pyStrip l) : c ∈ l := by
  unfold pyStrip at h
  rw [List.mem_reverse] at h
  have h2 := (List.dropWhile_suffix isPyWs).sublist.subset h
  rw [List.mem_reverse] at h2
  exact (List.dropWhile_suffix isPyWs).sublist.subset h2

/-- The stripped string is a prefix of the left-stripped string. -/
theorem pyStrip_prefix (l : List Char) :
    pyStrip l <+: List.dropWhile isPyWs l := by
  have hs : (pyStrip l).reverse <:+ (List.dropWhile isPyWs l).reverse := by
    unfold pyStrip
    rw [List.reverse_reverse]
    exact List.dropWhile_suffix _
  exact List.reverse_suffix.mp hs

/-- A nonempty stripped string starts with a non-whitespace character. -/
theorem pyStrip_head_clean {l : List Char} {c : Char} {rest : List Char}
    (h : pyStrip l = c :: rest) : isPyWs c = false := by
  have hp := pyStrip_prefix l
  rw [h] at hp
  obtain ⟨t, ht⟩ := hp
  cases hX : List.dropWhile isPyWs l with
  | nil => rw [hX] at ht; cases ht
  | cons d ds =>
    rw [hX] at ht
    injection ht with h1 _
    subst h1
    exact dropWhile_head_not hX

/-- A nonempty stripped string ends with a non-whitespace character. -/
theorem pyStrip_last_clean {l : List Char} {c : Char} {rest : List Char}
    (h : (pyStrip l).reverse = c :: rest) : isPyWs c = false := by
  unfold pyStrip at h
  rw [List.reverse_reverse] at h
  exact dropWhile_head_not h

/-- Stripping is idempotent. -/
theorem pyStrip_idem (l : List Char) : pyStrip (pyStrip l) = pyStrip l := by
  cases hm : pyStrip l with
  | nil => rfl
  | cons c rest =>
    have hc : isPyWs c = false := pyStrip_head_clean hm
    unfold pyStrip
    rw [List.dropWhile_cons, if_neg (by simp [hc])]
    cases hr : (c :: rest).reverse with
    | nil => exact absurd hr (by simp)
    | cons d ds =>
      have hd : isPyWs d = false := by
        apply pyStrip_last_clean (l := l)
        rw [hm]; exact hr
      rw [List.dropWhile_cons, if_neg (by simp [hd])]
      rw [← hr, List.reverse_reverse]

/-- Newline collapsing leaves no newline. -/
theorem replaceNl_no_nl {l : List Char} : '\n' ∉ replaceNl l := by
  intro h
  rcases List.mem_map.mp h with ⟨d, _, hd⟩
  by_cases hdn : d = '\n'
  · rw [if_pos hdn] at hd
    exact absurd hd (by decide)
  · rw [if_neg hdn] at hd
    exact hdn hd

/-- The normalized text `pyStrip (replaceNl x)` is trimmed and
newline-free. -/
theorem normText_ok (x : List Char) :
    pyStrip (pyStrip (replaceNl x)) = pyStrip (replaceNl x)
    ∧ '\n' ∉ pyStrip (replaceNl x) :=
  ⟨pyStrip_idem _, fun hm => replaceNl_no_nl (mem_pyStrip hm)⟩

/-- `max(0.0, x)` is non-negative for every float. -/
theorem pyNonneg_pyMax0 (x : PyF) : pyNonneg (pyMax0 x) = true := by
  unfold pyMax0
  by_cases h : pyLt (.fin 0) x = true
  · rw [if_pos h]
    cases x with
    | fin q =>
      simp only [pyLt, decide_eq_true_eq] at h
      simp only [pyNonneg, decide_eq_true_eq]
      linarith
    | inf => rfl
    | ninf => simp [pyLt] at h
    | nan => simp [pyLt] at h
  · rw [if_neg h]; rfl


/-! ## Per-path segment lemmas -/

/-- Every segment produced by the json3 event loop is clamped non-negative
and has normalized non-empty text. -/
theorem json3Events_invariants :
    ∀ {events segs}, video_pipeline.json3Events events = some segs →
      ∀ s ∈ segs, pyNonneg s.start = true ∧ pyNonneg s.duration = true
        ∧ s.text ≠ [] ∧ pyStrip s.text = s.text ∧ '\n' ∉ s.text := by
  intro events
  induction events with
  | nil =>
    intro segs h s hs
    injection h with h1
    subst h1
    exact absurd hs (List.not_mem_nil s)
  | cons ev rest ih =>
    intro segs h s hs
    simp only [video_pipeline.json3Events] at h
    split at h
    · split at h
      · split_ifs at h with htxt
        · exact ih h s hs
        · rcases Option.bind_eq_some.mp h with ⟨sms, _, h2⟩
          rcases Option.bind_eq_some.mp h2 with ⟨dms, _, h3⟩
          rcases Option.bind_eq_some.mp h3 with ⟨tail, htail, h4⟩
          injection h4 with h4
          subst h4
          rcases List.mem_cons.mp hs with rfl | hs2
          · exact ⟨pyNonneg_pyMax0 _, pyNonneg_pyMax0 _, htxt,
              pyStrip_idem _, fun hm => replaceNl_no_nl (mem_pyStrip hm)⟩
          · exact ih htail s hs2
      · exact ih h s hs
    · exact ih h s hs

/-- Inversion for a successfully parsed VTT cue block. -/
theorem vttBlock_some {block : List Char} {s : video_pipeline.TranscriptSegment}
    (h : video_pipeline.vttBlock block = some s) :
    ∃ a b t0, s = (⟨pyMax0 a, pyMax0 b, pyStrip (replaceNl t0)⟩ :
        video_pipeline.TranscriptSegment)
      ∧ pyStrip (replaceNl t0) ≠ [] := by
  simp only [video_pipeline.vttBlock] at h
  repeat' (first
    | exact Option.noConfusion h
    | split at h
    | split_ifs at h)
  all_goals
    injection h with h4
    subst h4
    exact ⟨_, _, _, rfl, by assumption⟩

/-- Every segment produced by the VTT parser is clamped non-negative and
has normalized non-empty text. -/
theorem vtt_invariants {content : List Char} :
    ∀ s ∈ video_pipeline._parse_vtt_transcript content,
      pyNonneg s.start = true ∧ pyNonneg s.duration = true
      ∧ s.text ≠ [] ∧ pyStrip s.text = s.text ∧ '\n' ∉ s.text := by
  intro s hs
  unfold video_pipeline._parse_vtt_transcript at hs
  rcases List.mem_filterMap.mp hs with ⟨block, _, hb⟩
  rcases vttBlock_some hb with ⟨a, b, t0, rfl, hne⟩
  exact ⟨pyNonneg_pyMax0 _, pyNonneg_pyMax0 _, hne,
    pyStrip_idem _, fun hm => replaceNl_no_nl (mem_pyStrip hm)⟩

/-- Every segment of the primary-API normalization loop has normalized
non-empty text (times are passed through unclamped). -/
theorem primaryNormalize_text_invariants :
    ∀ {raws segs}, video_pipeline.primaryNormalize raws = some segs →
      ∀ s ∈ segs, s.text ≠ [] ∧ pyStrip s.text = s.text ∧ '\n' ∉ s.text := by
  intro raws
  induction raws with
  | nil =>
    intro segs h s hs
    injection h with h1
    subst h1
    exact absurd hs (List.not_mem_nil s)
  | cons item rest ih =>
    intro segs h s hs
    simp only [video_pipeline.primaryNormalize] at h
    split_ifs at h with htxt
    · exact ih h s hs
    · rcases Option.bind_eq_some.mp h with ⟨sv, _, h2⟩
      rcases Option.bind_eq_some.mp h2 with ⟨dv, _, h3⟩
      rcases Option.bind_eq_some.mp h3 with ⟨tail, htail, h4⟩
      injection h4 with h4
      subst h4
      rcases List.mem_cons.mp hs with rfl | hs2
      · exact ⟨htxt, pyStrip_idem _, fun hm => replaceNl_no_nl (mem_pyStrip hm)⟩
      · exact ih htail s hs2

/-- Membership characterization of the Gemini bridge loop. -/
theorem geminiLoop_mem :
    ∀ {raws : List audio_transcriber.AdapterSeg}
      {s : video_pipeline.TranscriptSegment}, s ∈ video_pipeline.geminiLoop raws →
      ∃ item ∈ raws, s = (⟨item.start, item.duration, pyStrip (replaceNl item.text)⟩ :
          video_pipeline.TranscriptSegment)
        ∧ pyStrip (replaceNl item.text) ≠ [] := by
  intro raws
  induction raws with
  | nil => intro s hs; exact absurd hs (List.not_mem_nil s)
  | cons item rest ih =>
    intro s hs
    simp only [video_pipeline.geminiLoop] at hs
    by_cases htxt : pyStrip (replaceNl item.text) = []
    · rw [if_pos htxt] at hs
      rcases ih hs with ⟨it, hit, he, hne⟩
      exact ⟨it, List.mem_cons_of_mem _ hit, he, hne⟩
    · rw [if_neg htxt] at hs
      rcases List.mem_cons.mp hs with rfl | hs2
      · exact ⟨item, List.mem_cons_self _ _, rfl, htxt⟩
      · rcases ih hs2 with ⟨it, hit, he, hne⟩
        exact ⟨it, List.mem_cons_of_mem _ hit, he, hne⟩

/-- Durations produced by the adapter's back-fill are non-negative. -/
theorem backfill_duration_nonneg :
    ∀ (l : List audio_transcriber.AdapterSeg),
      ∀ s ∈ audio_transcriber.backfill l, pyNonneg s.duration = true := by
  intro l
  induction l with
  | nil => intro s hs; exact absurd hs (List.not_mem_nil s)
  | cons a rest ih =>
    intro s hs
    cases rest with
    | nil =>
      rcases List.mem_cons.mp hs with rfl | hs2
      · rfl
      · exact absurd hs2 (List.not_mem_nil s)
    | cons b rest2 =>
      rcases List.mem_cons.mp hs with rfl | hs2
      · exact pyNonneg_pyMax0 _
      · exact ih s hs2

/-- Every entry of a successful adapter parse has a non-negative
duration. -/
theorem adapter_duration_nonneg {payload parsed}
    (h : audio_transcriber._parse_transcribe_response payload = some parsed) :
    ∀ e ∈ parsed, pyNonneg e.duration = true := by
  unfold audio_transcriber._parse_transcribe_response at h
  split at h
  · rcases Option.bind_eq_some.mp h with ⟨p0, _, h2⟩
    by_cases hp : p0 = []
    · rw [if_pos hp] at h2
      injection h2 with h3
      subst h3
      intro e he
      exact absurd he (List.not_mem_nil e)
    · rw [if_neg hp] at h2
      injection h2 with h3
      subst h3
      exact backfill_duration_nonneg _
  · injection h with h1
    subst h1
    intro e he
    exact absurd he (List.not_mem_nil e)

/-! ## C7: segment invariants per acquisition path -/

/-- C7 (amended): the json3 and VTT parsers guarantee the full invariant
(non-negative clamped times, non-empty trimmed newline-free text); the
primary-API loop and the Gemini bridge guarantee the text invariants but
pass `start` (and, in the primary loop, `duration`) through unclamped, so
negative times can escape there (see the counterexample); durations on the
composed Gemini path are non-negative because the adapter back-fills
them. -/
theorem c7_segment_invariants :
    (∀ payload segs, video_pipeline._parse_json3_transcript payload = some segs →
      ∀ s ∈ segs, pyNonneg s.start = true ∧ pyNonneg s.duration = true
        ∧ s.text ≠ [] ∧ pyStrip s.text = s.text ∧ '\n' ∉ s.text)
    ∧ (∀ content, ∀ s ∈ video_pipeline._parse_vtt_transcript content,
        pyNonneg s.start = true ∧ pyNonneg s.duration = true
        ∧ s.text ≠ [] ∧ pyStrip s.text = s.text ∧ '\n' ∉ s.text)
    ∧ (∀ raws segs, video_pipeline.primaryNormalize raws = some segs →
        ∀ s ∈ segs, s.text ≠ [] ∧ pyStrip s.text = s.text ∧ '\n' ∉ s.text)
    ∧ (∀ raws, ∀ s ∈ video_pipeline._fetch_transcript_via_gemini raws,
        s.text ≠ [] ∧ pyStrip s.text = s.text ∧ '\n' ∉ s.text)
    ∧ (∀ payload parsed,
        audio_transcriber._parse_transcribe_response payload = some parsed →
        ∀ s ∈ video_pipeline._fetch_transcript_via_gemini parsed,
          pyNonneg s.duration = true) := by
  refine ⟨?_, ?_, ?_, ?_, ?_⟩
  · intro payload segs h s hs
    unfold video_pipeline._parse_json3_transcript at h
    split at h
    · injection h with h1; subst h1; exact absurd hs (List.not_mem_nil s)
    · split at h
      · exact json3Events_invariants h s hs
      · injection h with h1; subst h1; exact absurd hs (List.not_mem_nil s)
    · cases h
  · intro content s hs
    exact vtt_invariants s hs
  · intro raws segs h s hs
    exact primaryNormalize_text_invariants h s hs
  · intro raws s hs
    unfold video_pipeline._fetch_transcript_via_gemini at hs
    split_ifs at hs with hr
    · exact absurd hs (List.not_mem_nil s)
    · rcases geminiLoop_mem hs with ⟨it, _, rfl, hne⟩
      exact ⟨hne, pyStrip_idem _, fun hm => replaceNl_no_nl (mem_pyStrip hm)⟩
  · intro payload parsed hp s hs
    unfold video_pipeline._fetch_transcript_via_gemini at hs
    split_ifs at hs with hr
    · exact absurd hs (List.not_mem_nil s)
    · rcases geminiLoop_mem hs with ⟨it, hit, rfl, _⟩
      exact adapter_duration_nonneg hp it hit

/-- Witness for C7's amended json3 part at a concrete single-event
payload. -/
theorem c7_segment_invariants_witness :
    video_pipeline._parse_json3_transcript (some (.obj [(("events").data,
        .arr [mkEv (.int 1500) (.int 2500) (("Hello").data)])]))
      = some [{ start := .fin (Rat.div 3 2), duration := .fin (Rat.div 5 2),
                text := ("Hello").data }]
    ∧ ∀ s ∈ [({ start := .fin (Rat.div 3 2), duration := .fin (Rat.div 5 2),
                text := ("Hello").data } : video_pipeline.TranscriptSegment)],
        pyNonneg s.start = true ∧ pyNonneg s.duration = true
        ∧ s.text ≠ [] ∧ pyStrip s.text = s.text ∧ '\n' ∉ s.text :=
  ⟨by decide,
   c7_segment_invariants.1
     (some (.obj [(("events").data, .arr [mkEv (.int 1500) (.int 2500) (("Hello").data)])]))
     [{ start := .fin (Rat.div 3 2), duration := .fin (Rat.div 5 2),
        text := ("Hello").data }]
     (by decide)⟩

/-! ## C5: the adapter's sort and duration back-fill -/

/-- C5 counterexample: an entry with non-empty text but timestamp
`"inf:00"` makes the adapter raise (`int(float("inf"))`), so it does not
return a sorted list for every response whose entries have non-empty
text. -/
theorem c5_counterexample :
    audio_transcriber._parse_transcribe_response
      [(("segments").data, .arr [.obj [(("timestamp").data, .str (("inf:00").data)),
        (("text").data, .str (("x").data))]])] = none := by
  decide

/-- At most one strict float comparison holds between two values. -/
theorem pyLt_asymm : ∀ {x y : PyF}, pyLt x y = true → pyLt y x = false := by
  intro x y
  cases x <;> cases y <;> simp [pyLt] <;> intro h <;> linarith

/-- The adapter comparison is total. -/
theorem adapterLe_total (a b : audio_transcriber.AdapterSeg) :
    audio_transcriber.adapterLe a b ∨ audio_transcriber.adapterLe b a := by
  by_cases h : pyLt b.start a.start = true
  · exact Or.inr (pyLt_asymm h)
  · exact Or.inl (by simpa using h)

/-- The adapter comparison is transitive on finite keys. -/
theorem adapterLe_trans_fin {a b c : audio_transcriber.AdapterSeg}
    (qa : ℚ) (qb : ℚ) (qc : ℚ)
    (ha : a.start = PyF.fin qa) (hb : b.start = PyF.fin qb) (hc : c.start = PyF.fin qc)
    (hab : audio_transcriber.adapterLe a b) (hbc : audio_transcriber.adapterLe b c) :
    audio_transcriber.adapterLe a c := by
  unfold audio_transcriber.adapterLe at *
  rw [ha, hb] at hab
  rw [hb, hc] at hbc
  rw [ha, hc]
  simp only [pyLt, decide_eq_false_iff_not] at *
  linarith

/-- Inserting into a sorted list of finite-keyed segments keeps it
sorted. -/
theorem pairwise_orderedInsert_adapter :
    ∀ {l : List audio_transcriber.AdapterSeg} {a : audio_transcriber.AdapterSeg},
      (∀ x ∈ a :: l, ∃ q, x.start = PyF.fin q) →
      l.Pairwise audio_transcriber.adapterLe →
      (List.orderedInsert audio_transcriber.adapterLe a l).Pairwise
        audio_transcriber.adapterLe := by
  intro l
  induction l with
  | nil =>
    intro a _ _
    simp [List.orderedInsert]
  | cons b bs ih =>
    intro a hfin hl
    rw [List.orderedInsert]
    by_cases hab : audio_transcriber.adapterLe a b
    · rw [if_pos hab]
      refine List.Pairwise.cons ?_ hl
      intro x hx
      rcases List.mem_cons.mp hx with rfl | hx2
      · exact hab
      · have hbx : audio_transcriber.adapterLe b x :=
          (List.pairwise_cons.mp hl).1 x hx2
        rcases hfin a (by simp) with ⟨qa, hqa⟩
        rcases hfin b (by simp) with ⟨qb, hqb⟩
        rcases hfin x (by simp [hx2]) with ⟨qx, hqx⟩
        exact adapterLe_trans_fin qa qb qx hqa hqb hqx hab hbx
    · rw [if_neg hab]
      have hba : audio_transcriber.adapterLe b a :=
        (adapterLe_total a b).resolve_left hab
      have hfin2 : ∀ x ∈ a :: bs, ∃ q, x.start = PyF.fin q := by
        intro x hx
        rcases List.mem_cons.mp hx with rfl | hx2
        · exact hfin x (by simp)
        · exact hfin x (by simp [hx2])
      refine List.Pairwise.cons ?_ (ih hfin2 (List.pairwise_cons.mp hl).2)
      intro x hx
      rcases (List.mem_orderedInsert _).mp hx with rfl | hx2
      · exact hba
      · exact (List.pairwise_cons.mp hl).1 x hx2

/-- Insertion sort over finite-keyed segments produces a sorted list. -/
theorem pairwise_insertionSort_adapter :
    ∀ {l : List audio_transcriber.AdapterSeg},
      (∀ x ∈ l, ∃ q, x.start = PyF.fin q) →
      (List.insertionSort audio_transcriber.adapterLe l).Pairwise
        audio_transcriber.adapterLe := by
  intro l
  induction l with
  | nil => intro _; simp
  | cons a as ih =>
    intro hfin
    rw [List.insertionSort]
    apply pairwise_orderedInsert_adapter
    · intro x hx
      rcases List.mem_cons.mp hx with rfl | hx2
      · exact hfin x (by simp)
      · exact hfin x (List.mem_cons_of_mem _ ((List.mem_insertionSort _).mp hx2))
    · exact ih fun x hx => hfin x (by simp [hx])

/-- The back-fill rewrites durations only: start times are untouched. -/
theorem backfill_map_start :
    ∀ l : List audio_transcriber.AdapterSeg,
      (audio_transcriber.backfill l).map (fun s => s.start)
        = l.map (fun s => s.start) := by
  intro l
  induction l with
  | nil => rfl
  | cons a rest ih =>
    cases rest with
    | nil => rfl
    | cons b r2 =>
      simp only [audio_transcriber.backfill, List.map_cons]
      rw [show (audio_transcriber.backfill (b :: r2)).map (fun s => s.start)
          = (b :: r2).map (fun s => s.start) from ih]
      rfl

/-- Sortedness transfers along equal start-time sequences. -/
theorem pairwise_adapterLe_of_map_start
    {l m : List audio_transcriber.AdapterSeg}
    (h : l.map (fun s => s.start) = m.map (fun s => s.start))
    (hp : m.Pairwise audio_transcriber.adapterLe) :
    l.Pairwise audio_transcriber.adapterLe := by
  have h1 : (m.map (fun s => s.start)).Pairwise (fun x y => pyLt y x = false) :=
    List.pairwise_map.mpr hp
  rw [← h] at h1
  have h2 := List.pairwise_map.mp h1
  exact h2.imp (fun hab => hab)

/-- The back-fill establishes the claimed duration shape. -/
theorem backfill_ok :
    ∀ l : List audio_transcriber.AdapterSeg, BackfilledOk (audio_transcriber.backfill l) := by
  intro l
  induction l with
  | nil => exact .nil
  | cons a rest ih =>
    cases rest with
    | nil => exact .single _ rfl
    | cons b r2 =>
      cases r2 with
      | nil => exact .cons _ _ _ rfl (.single _ rfl)
      | cons c r3 => exact .cons _ _ _ rfl ih

/-- C5 (amended): whenever the adapter returns (its lenient timestamp parse
can raise on non-finite values — see the counterexample), the result is
back-filled per the claim (`max(0, next.start − this.start)`, final `8.0`)
and, when all returned start keys are finite floats, sorted ascending by
start; the spec's `[10, 0, 5] ↦ [0, 5, 10] / [5, 5, 8]` example holds
exactly. -/
theorem c5_adapter_sort_backfill :
    (∀ payload segs,
      audio_transcriber._parse_transcribe_response payload = some segs →
      BackfilledOk segs
      ∧ ((∀ e ∈ segs, ∃ q, e.start = PyF.fin q) →
          segs.Pairwise audio_transcriber.adapterLe))
    ∧ audio_transcriber._parse_transcribe_response examplePayload
      = some [⟨.fin 0, .fin 5, ("b").data⟩, ⟨.fin 5, .fin 5, ("c").data⟩,
              ⟨.fin 10, .fin 8, ("a").data⟩] := by
  constructor
  · intro payload segs h
    unfold audio_transcriber._parse_transcribe_response at h
    split at h
    · rcases Option.bind_eq_some.mp h with ⟨parsed, _, h2⟩
      by_cases hp : parsed = []
      · rw [if_pos hp] at h2
        injection h2 with h3
        subst h3
        exact ⟨.nil, fun _ => List.Pairwise.nil⟩
      · rw [if_neg hp] at h2
        injection h2 with h3
        subst h3
        refine ⟨backfill_ok _, fun hfin => ?_⟩
        apply pairwise_adapterLe_of_map_start (backfill_map_start _)
        apply pairwise_insertionSort_adapter
        intro x hx
        have hx2 : x ∈ List.insertionSort audio_transcriber.adapterLe parsed :=
          (List.mem_insertionSort _).mpr hx
        have hms : x.start ∈ (audio_transcriber.backfill
            (List.insertionSort audio_transcriber.adapterLe parsed)).map
              (fun s => s.start) := by
          rw [backfill_map_start]
          exact List.mem_map.mpr ⟨x, hx2, rfl⟩
        rcases List.mem_map.mp hms with ⟨s2, hs2, he⟩
        rcases hfin s2 hs2 with ⟨q, hq⟩
        exact ⟨q, by rw [← he, hq]⟩
    · injection h with h1
      subst h1
      exact ⟨.nil, fun _ => List.Pairwise.nil⟩
  · decide

/-- Witness for C5's amended sortedness at the spec example. -/
theorem c5_adapter_sort_backfill_witness :
    audio_transcriber._parse_transcribe_response examplePayload
      = some [⟨.fin 0, .fin 5, ("b").data⟩, ⟨.fin 5, .fin 5, ("c").data⟩,
              ⟨.fin 10, .fin 8, ("a").data⟩]
    ∧ ([(⟨.fin 0, .fin 5, ("b").data⟩ : audio_transcriber.AdapterSeg),
        ⟨.fin 5, .fin 5, ("c").data⟩, ⟨.fin 10, .fin 8, ("a").data⟩]).Pairwise
        audio_transcriber.adapterLe := by
  refine ⟨by decide, ?_⟩
  apply (c5_adapter_sort_backfill.1 examplePayload
      [⟨.fin 0, .fin 5, ("b").data⟩, ⟨.fin 5, .fin 5, ("c").data⟩,
       ⟨.fin 10, .fin 8, ("a").data⟩] (by decide)).2
  intro e he
  fin_cases he <;> exact ⟨_, rfl⟩

/-! ## C6: the source selector -/

/-- C6 counterexample: with the duplicated preferred list
`["en", "fr", "en"]`, the dict comprehension ranks `en` by its *last*
index (2), so `fr` sorts before `en`; the spec's first-index rank (0 for
`en`) demands the opposite order, and the two selectors disagree. -/
theorem c6_counterexample :
    video_pipeline._collect_caption_tracks dupInfo dupPrefs
      ≠ specCollect dupInfo dupPrefs := by
  decide

instance : IsTotal video_pipeline.CaptionCand video_pipeline.candLe :=
  ⟨fun a b => by unfold video_pipeline.candLe video_pipeline.tripleLe; omega⟩

instance : IsTrans video_pipeline.CaptionCand video_pipeline.candLe :=
  ⟨fun a b c => by unfold video_pipeline.candLe video_pipeline.tripleLe; omega⟩

/-- An unlisted language never appears in the rank dict. -/
theorem lastIdx_eq_none_of_not_mem {x : List Char} :
    ∀ {l : List (List Char)}, x ∉ l → video_pipeline.lastIdx x l = none := by
  intro l
  induction l with
  | nil => intro _; rfl
  | cons y ys ih =>
    intro hx
    unfold video_pipeline.lastIdx
    rw [ih (fun hm => hx (List.mem_cons_of_mem _ hm))]
    have hne : y ≠ x := fun he => hx (by rw [← he]; exact List.mem_cons_self y ys)
    rw [if_neg hne]

/-- On a duplicate-free preferred list, the last-occurrence index of the
dict comprehension coincides with the plain (first-occurrence) index. -/
theorem lastIdx_eq_firstIdx {x : List Char} :
    ∀ {l : List (List Char)}, l.Nodup →
      video_pipeline.lastIdx x l = firstIdx x l := by
  intro l
  induction l with
  | nil => intro _; rfl
  | cons y ys ih =>
    intro hnd
    rcases List.nodup_cons.mp hnd with ⟨hy, hnd2⟩
    unfold video_pipeline.lastIdx firstIdx
    by_cases hxy : y = x
    · subst hxy
      rw [lastIdx_eq_none_of_not_mem hy]
      simp
    · rw [ih hnd2]
      cases firstIdx x ys with
      | none => simp [hxy]
      | some i => simp [hxy]

/-- On a duplicate-free preferred list the code's language score is the
spec's language rank. -/
theorem langScore_eq_specLangRank {preferred : List (List Char)}
    (hnd : preferred.Nodup) (lang : List Char) :
    video_pipeline.langScore preferred lang = specLangRank preferred lang := by
  unfold video_pipeline.langScore specLangRank
  rw [lastIdx_eq_firstIdx hnd, List.Nodup.dedup hnd]
  cases firstIdx lang preferred with
  | none => rfl
  | some i => rfl

/-- The lexicographic key order is reflexive. -/
theorem tripleLe_refl (x : ℕ × ℕ × ℕ) : video_pipeline.tripleLe x x := by
  unfold video_pipeline.tripleLe; omega

/-- The lexicographic key order is total. -/
theorem tripleLe_total (x y : ℕ × ℕ × ℕ) :
    video_pipeline.tripleLe x y ∨ video_pipeline.tripleLe y x := by
  unfold video_pipeline.tripleLe; omega

/-- A failed comparison implies strictly distinct keys. -/
theorem candKey_ne_of_not_candLe {a b : video_pipeline.CaptionCand}
    (h : ¬video_pipeline.candLe a b) :
    video_pipeline.candKey b ≠ video_pipeline.candKey a := by
  intro he
  exact h (by unfold video_pipeline.candLe; rw [he]; exact tripleLe_refl _)

/-- Inserting a key-`k` candidate puts it in front of the key-`k` block:
the filtered subsequence gains it at the head. -/
theorem filter_orderedInsert_candKey_eq (k : ℕ × ℕ × ℕ)
    (a : video_pipeline.CaptionCand) (ha : video_pipeline.candKey a = k) :
    ∀ l, (List.orderedInsert video_pipeline.candLe a l).filter
        (fun c => decide (video_pipeline.candKey c = k))
      = a :: l.filter (fun c => decide (video_pipeline.candKey c = k)) := by
  intro l
  induction l with
  | nil => simp [List.orderedInsert, List.filter, ha]
  | cons b bs ih =>
    rw [List.orderedInsert]
    by_cases hab : video_pipeline.candLe a b
    · rw [if_pos hab, List.filter_cons, if_pos (by simp [ha])]
    · rw [if_neg hab]
      have hbk : video_pipeline.candKey b ≠ k := by
        intro he
        exact candKey_ne_of_not_candLe hab (he.trans ha.symm)
      rw [List.filter_cons, if_neg (by simp [hbk]), ih,
        List.filter_cons, if_neg (by simp [hbk])]

/-- Inserting a candidate with a different key leaves the key-`k`
subsequence unchanged. -/
theorem filter_orderedInsert_candKey_ne (k : ℕ × ℕ × ℕ)
    (a : video_pipeline.CaptionCand) (ha : video_pipeline.candKey a ≠ k) :
    ∀ l, (List.orderedInsert video_pipeline.candLe a l).filter
        (fun c => decide (video_pipeline.candKey c = k))
      = l.filter (fun c => decide (video_pipeline.candKey c = k)) := by
  intro l
  induction l with
  | nil => simp [List.orderedInsert, List.filter, ha]
  | cons b bs ih =>
    rw [List.orderedInsert]
    by_cases hab : video_pipeline.candLe a b
    · rw [if_pos hab, List.filter_cons, if_neg (by simp [ha])]
    · rw [if_neg hab, List.filter_cons, ih, List.filter_cons]

/-- The stable sort preserves each equal-key subsequence in input order. -/
theorem filter_insertionSort_candKey (k : ℕ × ℕ × ℕ) :
    ∀ l : List video_pipeline.CaptionCand,
      (List.insertionSort video_pipeline.candLe l).filter
          (fun c => decide (video_pipeline.candKey c = k))
        = l.filter (fun c => decide (video_pipeline.candKey c = k)) := by
  intro l
  induction l with
  | nil => rfl
  | cons a as ih =>
    rw [List.insertionSort]
    by_cases ha : video_pipeline.candKey a = k
    · rw [filter_orderedInsert_candKey_eq k a ha, ih,
        List.filter_cons, if_pos (by simp [ha])]
    · rw [filter_orderedInsert_candKey_ne k a ha, ih,
        List.filter_cons, if_neg (by simp [ha])]

/-- C6 (amended): for every duplicate-free preferred-language list the
selector equals the spec's description — candidates ranked by (first-index
language rank with `len(list)+1` for unlisted, human-before-auto origin
rank, `json3 < vtt < others` format rank), stably sorted ascending: the
output is sorted, is a permutation of the harvested candidates, and every
equal-key subsequence keeps its input order.  With duplicated preferred
entries the dict comprehension keeps the *last* index and counts distinct
languages, and the claim fails (see the counterexample). -/
theorem c6_selector_spec (info : List (List Char × JValue))
    (preferred : List (List Char)) (hnd : preferred.Nodup) :
    video_pipeline._collect_caption_tracks info preferred
      = specCollect info preferred
    ∧ (video_pipeline._collect_caption_tracks info preferred).Pairwise
        video_pipeline.candLe
    ∧ (video_pipeline._collect_caption_tracks info preferred).Perm
        (video_pipeline.collectRawCands info preferred)
    ∧ ∀ k : ℕ × ℕ × ℕ,
        (video_pipeline._collect_caption_tracks info preferred).filter
            (fun c => decide (video_pipeline.candKey c = k))
          = (video_pipeline.collectRawCands info preferred).filter
            (fun c => decide (video_pipeline.candKey c = k)) := by
  refine ⟨?_, ?_, ?_, ?_⟩
  · unfold video_pipeline._collect_caption_tracks specCollect
      video_pipeline.collectRawCands
    rw [funext (langScore_eq_specLangRank hnd)]
  · exact List.sorted_insertionSort _ _
  · exact List.perm_insertionSort _ _
  · intro k
    exact filter_insertionSort_candKey k _

/-- Witness for C6 at a duplicate-free preferred list. -/
theorem c6_selector_spec_witness :
    ([("en").data, ("fr").data] : List (List Char)).Nodup
    ∧ video_pipeline._collect_caption_tracks dupInfo [("en").data, ("fr").data]
      = specCollect dupInfo [("en").data, ("fr").data] :=
  ⟨by decide, (c6_selector_spec dupInfo [("en").data, ("fr").data] (by decide)).1⟩

/-! ## C3: per-unit error tolerance of the caption parsers -/

/-- C3 counterexample: a json3 event whose `tStartMs` holds the
non-numeric string `"abc"` (with non-empty text) makes the whole parse
raise — `float("abc")` is not guarded — instead of skipping just that
event. -/
theorem c3_counterexample :
    video_pipeline._parse_json3_transcript (some json3BadPayload) = none := by
  decide

/-- getLast? membership (small helper). -/
theorem getLast?_mem_of_eq :
    ∀ {l : List Char} {a : Char}, l.getLast? = some a → a ∈ l := by
  intro l
  induction l with
  | nil => intro a h; cases h
  | cons c cs ih =>
    intro a h
    cases cs with
    | nil =>
      injection h with h
      subst h
      exact List.mem_singleton_self _
    | cons d ds =>
      rw [List.getLast?_cons_cons] at h
      exact List.mem_cons_of_mem _ (ih h)

/-- `takeWhile` over an append stops within the first part when that part
contains a failing element. -/
theorem takeWhile_append_stops {p : Char → Bool} :
    ∀ {a : List Char} (b : List Char), (∃ x ∈ a, p x = false) →
      List.takeWhile p (a ++ b) = List.takeWhile p a := by
  intro a
  induction a with
  | nil =>
    intro b hex
    rcases hex with ⟨x, hx, _⟩
    exact absurd hx (List.not_mem_nil x)
  | cons c cs ih =>
    intro b hex
    by_cases hc : p c = true
    · rw [List.cons_append, List.takeWhile_cons, if_pos hc, List.takeWhile_cons, if_pos hc]
      rcases hex with ⟨x, hx, hpx⟩
      rcases List.mem_cons.mp hx with rfl | hx2
      · rw [hc] at hpx; cases hpx
      · rw [ih b ⟨x, hx2, hpx⟩]
    · rw [List.cons_append, List.takeWhile_cons, if_neg hc, List.takeWhile_cons, if_neg hc]

/-- Dropping the non-whitespace tail requirement through a cons. -/
theorem endsNonWs_cons_of_ne_nil {c : Char} {l : List Char} (h : l ≠ []) :
    endsNonWs (c :: l) = endsNonWs l := by
  cases l with
  | nil => exact absurd rfl h
  | cons d ds =>
    unfold endsNonWs
    rw [List.getLast?_cons_cons]

/-- One-step unfolding of the block-splitting scan. -/
theorem splitBlocksAux_cons (acc : List Char) (c : Char) (rest : List Char) :
    video_pipeline.splitBlocksAux acc (c :: rest)
      = if c = '\n' then
          (if '\n' ∈ rest.takeWhile isPyWs then
            acc.reverse :: video_pipeline.splitBlocksAux []
              (rest.drop ((rest.takeWhile isPyWs).length -
                ((rest.takeWhile isPyWs).reverse.takeWhile (fun d => d ≠ '\n')).length))
          else video_pipeline.splitBlocksAux ('\n' :: acc) rest)
        else video_pipeline.splitBlocksAux (c :: acc) rest := by
  rw [video_pipeline.splitBlocksAux]

/-- Splitting a blank-line separator that is immediately followed by
non-whitespace closes the current block exactly at the separator. -/
theorem splitBlocksAux_sep_nil {b2 : List Char} (hb2 : startsNonWs b2 = true)
    (acc : List Char) :
    video_pipeline.splitBlocksAux acc ('\n' :: '\n' :: b2)
      = acc.reverse :: video_pipeline.splitBlocksAux [] b2 := by
  cases b2 with
  | nil => exact absurd hb2 (by decide)
  | cons d b2' =>
    have hd : isPyWs d = false := by
      unfold startsNonWs at hb2
      simpa using hb2
    have hws : List.takeWhile isPyWs ('\n' :: d :: b2') = ['\n'] := by
      rw [List.takeWhile_cons, if_pos (by decide), List.takeWhile_cons,
        if_neg (by simp [hd])]
    rw [splitBlocksAux_cons, if_pos rfl, hws]
    rw [if_pos (List.mem_singleton_self '\n')]
    have hkeep : ((['\n'] : List Char).reverse.takeWhile (fun e => e ≠ '\n')).length = 0 := by
      decide
    rw [hkeep]
    have hdrop : List.drop ((['\n'] : List Char).length - 0) ('\n' :: d :: b2')
        = d :: b2' := rfl
    rw [hdrop]

/-- The scan on an exhausted input closes the current block. -/
theorem splitBlocksAux_nil (acc : List Char) :
    video_pipeline.splitBlocksAux acc [] = [acc.reverse] := by
  rw [video_pipeline.splitBlocksAux]

/-- The scan is local: a blank-line separator between a chunk ending in
non-whitespace and a chunk starting with non-whitespace splits
independently of what follows. -/
theorem splitBlocksAux_sep :
    ∀ (fuel : ℕ) (b1 b2 : List Char), b1.length ≤ fuel →
      (b1 = [] ∨ endsNonWs b1 = true) → startsNonWs b2 = true →
      ∀ acc, video_pipeline.splitBlocksAux acc (b1 ++ '\n' :: '\n' :: b2)
        = video_pipeline.splitBlocksAux acc b1 ++ video_pipeline.splitBlocksAux [] b2 := by
  intro fuel
  induction fuel with
  | zero =>
    intro b1 b2 hlen hb1 hb2 acc
    have h0 : b1 = [] := List.length_eq_zero.mp (Nat.le_zero.mp hlen)
    subst h0
    rw [List.nil_append, splitBlocksAux_sep_nil hb2, splitBlocksAux_nil]
    rfl
  | succ n ih =>
    intro b1 b2 hlen hb1 hb2 acc
    cases b1 with
    | nil =>
      rw [List.nil_append, splitBlocksAux_sep_nil hb2, splitBlocksAux_nil]
      rfl
    | cons c b1' =>
      have hb1len : b1'.length ≤ n := by
        simp only [List.length_cons] at hlen
        omega
      rcases hb1 with h0 | hend
      · exact absurd h0 (by simp)
      · by_cases hc : c = '\n'
        · subst hc
          have hb1ne : b1' ≠ [] := by
            intro h0
            subst h0
            exact absurd hend (by decide)
          have hend2 := hend
          rw [endsNonWs_cons_of_ne_nil hb1ne] at hend2
          obtain ⟨glast, hglast⟩ : ∃ g, b1'.getLast? = some g := by
            cases hx : b1'.getLast? with
            | none => exact absurd (List.getLast?_eq_none_iff.mp hx) hb1ne
            | some g => exact ⟨g, rfl⟩
          have hgws : isPyWs glast = false := by
            unfold endsNonWs at hend2
            rw [hglast] at hend2
            simpa using hend2
          have hws_eq : List.takeWhile isPyWs (b1' ++ '\n' :: '\n' :: b2)
              = List.takeWhile isPyWs b1' :=
            takeWhile_append_stops _ ⟨glast, getLast?_mem_of_eq hglast, hgws⟩
          rw [List.cons_append, splitBlocksAux_cons, if_pos rfl, hws_eq]
          rw [splitBlocksAux_cons acc '\n' b1', if_pos rfl]
          by_cases hnl : '\n' ∈ List.takeWhile isPyWs b1'
          · rw [if_pos hnl, if_pos hnl]
            have hnle : (List.takeWhile isPyWs b1').length -
                ((List.takeWhile isPyWs b1').reverse.takeWhile
                  (fun d => d ≠ '\n')).length ≤ b1'.length :=
              le_trans (Nat.sub_le _ _) (List.takeWhile_prefix _).length_le
            rw [List.drop_append_of_le_length hnle]
            rw [List.cons_append]
            have hlen2 : (b1'.drop ((List.takeWhile isPyWs b1').length -
                ((List.takeWhile isPyWs b1').reverse.takeWhile
                  (fun d => d ≠ '\n')).length)).length ≤ n := by
              rw [List.length_drop]
              omega
            have hbd : b1'.drop ((List.takeWhile isPyWs b1').length -
                ((List.takeWhile isPyWs b1').reverse.takeWhile
                  (fun d => d ≠ '\n')).length) = []
                ∨ endsNonWs (b1'.drop ((List.takeWhile isPyWs b1').length -
                    ((List.takeWhile isPyWs b1').reverse.takeWhile
                      (fun d => d ≠ '\n')).length)) = true := by
              by_cases hdem : b1'.drop ((List.takeWhile isPyWs b1').length -
                  ((List.takeWhile isPyWs b1').reverse.takeWhile
                    (fun d => d ≠ '\n')).length) = []
              · exact Or.inl hdem
              · refine Or.inr ?_
                have hgl : (b1'.drop ((List.takeWhile isPyWs b1').length -
                    ((List.takeWhile isPyWs b1').reverse.takeWhile
                      (fun d => d ≠ '\n')).length)).getLast? = b1'.getLast? := by
                  conv_rhs => rw [← List.take_append_drop ((List.takeWhile isPyWs b1').length -
                    ((List.takeWhile isPyWs b1').reverse.takeWhile
                      (fun d => d ≠ '\n')).length) b1']
                  rw [List.getLast?_append]
                  cases hx : (b1'.drop ((List.takeWhile isPyWs b1').length -
                      ((List.takeWhile isPyWs b1').reverse.takeWhile
                        (fun d => d ≠ '\n')).length)).getLast? with
                  | none => exact absurd (List.getLast?_eq_none_iff.mp hx) hdem
                  | some g => rfl
                unfold endsNonWs
                rw [hgl, hglast]
                simpa using hgws
            exact congrArg (List.cons acc.reverse) (ih _ b2 hlen2 hbd hb2 [])
          · rw [if_neg hnl, if_neg hnl]
            exact ih b1' b2 hb1len (Or.inr hend2) hb2 ('\n' :: acc)
        · rw [List.cons_append, splitBlocksAux_cons, if_neg hc]
          rw [splitBlocksAux_cons acc c b1', if_neg hc]
          have hbd : b1' = [] ∨ endsNonWs b1' = true := by
            cases hb1x : b1' with
            | nil => exact Or.inl rfl
            | cons d ds =>
              refine Or.inr ?_
              have := hend
              rw [hb1x, endsNonWs_cons_of_ne_nil (by simp)] at this
              exact this
          exact ih b1' b2 hb1len hbd hb2 (c :: acc)

/-- C3 (amended): the VTT parser is local — a well-separated malformed
block contributes nothing while all other blocks parse as if alone — and
the json3 parser skips structurally malformed events (non-dict events,
non-list `segs`, empty text) and never aborts while every event's
(`or 0`-defaulted) millisecond fields are float-convertible; but a
non-numeric string in `tStartMs`/`dDurationMs` of a text-bearing event
raises out of the whole json3 parse (see the counterexample), so the
original claim fails for the dense-event parser. -/
theorem c3_parser_tolerance :
    (∀ events, (∀ ev ∈ events, json3EventOk ev) →
      (video_pipeline.json3Events events).isSome = true)
    ∧ (∀ ev events, json3Skippable ev →
        video_pipeline.json3Events (ev :: events) = video_pipeline.json3Events events)
    ∧ (∀ b1 b2 : List Char,
        (b1.filter (fun c => c ≠ '\r') = []
          ∨ endsNonWs (b1.filter (fun c => c ≠ '\r')) = true) →
        startsNonWs (b2.filter (fun c => c ≠ '\r')) = true →
        video_pipeline._parse_vtt_transcript (b1 ++ '\n' :: '\n' :: b2)
          = video_pipeline._parse_vtt_transcript b1
            ++ video_pipeline._parse_vtt_transcript b2) := by
  refine ⟨?_, ?_, ?_⟩
  · intro events
    induction events with
    | nil => intro _; rfl
    | cons ev rest ih =>
      intro h
      have hev := h ev (List.mem_cons_self _ _)
      have hrest : ∀ e ∈ rest, json3EventOk e :=
        fun e he => h e (List.mem_cons_of_mem _ he)
      cases ev with
      | obj kvs =>
        unfold json3EventOk at hev
        cases hseg : pyOr (jGetD kvs (("segs").data)) (.arr []) with
        | arr parts =>
          simp only [video_pipeline.json3Events, hseg]
          split_ifs with htxt
          · exact ih hrest
          · rcases Option.isSome_iff_exists.mp hev.1 with ⟨f0, hf0⟩
            rcases Option.isSome_iff_exists.mp hev.2 with ⟨f1, hf1⟩
            rcases Option.isSome_iff_exists.mp (ih hrest) with ⟨tl, htl⟩
            simp [hf0, hf1, htl]
        | null => simp only [video_pipeline.json3Events, hseg]; exact ih hrest
        | bool b => simp only [video_pipeline.json3Events, hseg]; exact ih hrest
        | int z => simp only [video_pipeline.json3Events, hseg]; exact ih hrest
        | float q => simp only [video_pipeline.json3Events, hseg]; exact ih hrest
        | str t => simp only [video_pipeline.json3Events, hseg]; exact ih hrest
        | obj kvs2 => simp only [video_pipeline.json3Events, hseg]; exact ih hrest
      | null => exact ih hrest
      | bool b => exact ih hrest
      | int z => exact ih hrest
      | float q => exact ih hrest
      | str t => exact ih hrest
      | arr xs => exact ih hrest
  · intro ev events hsk
    cases ev with
    | obj kvs =>
      cases hseg : pyOr (jGetD kvs (("segs").data)) (.arr []) with
      | arr parts =>
        simp only [json3Skippable, hseg] at hsk
        simp only [video_pipeline.json3Events, hseg, hsk, if_true]
      | null => simp only [video_pipeline.json3Events, hseg]
      | bool b => simp only [video_pipeline.json3Events, hseg]
      | int z => simp only [video_pipeline.json3Events, hseg]
      | float q => simp only [video_pipeline.json3Events, hseg]
      | str t => simp only [video_pipeline.json3Events, hseg]
      | obj kvs2 => simp only [video_pipeline.json3Events, hseg]
    | null => rfl
    | bool b => rfl
    | int z => rfl
    | float q => rfl
    | str t => rfl
    | arr xs => rfl
  · intro b1 b2 hb1 hb2
    unfold video_pipeline._parse_vtt_transcript
    have hfil : (b1 ++ '\n' :: '\n' :: b2).filter (fun c => c ≠ '\r')
        = b1.filter (fun c => c ≠ '\r')
          ++ '\n' :: '\n' :: b2.filter (fun c => c ≠ '\r') := by
      rw [List.filter_append]
      congr 1
    rw [hfil]
    unfold video_pipeline.splitBlocks
    rw [splitBlocksAux_sep ((b1.filter (fun c => c ≠ '\r')).length) _ _ le_rfl hb1 hb2 []]
    rw [List.filterMap_append]

/-- Witness for C3's amended VTT locality at a concrete good block followed
by a malformed block. -/
theorem c3_parser_tolerance_witness :
    (("WEBVTT\n\n00:00:01.000 --> 00:00:03.000\nHello").data.filter
        (fun c => c ≠ '\r') = []
      ∨ endsNonWs (("WEBVTT\n\n00:00:01.000 --> 00:00:03.000\nHello").data.filter
          (fun c => c ≠ '\r')) = true)
    ∧ startsNonWs (("badtime --> worse\nskip me").data.filter
        (fun c => c ≠ '\r')) = true
    ∧ video_pipeline._parse_vtt_transcript
        (("WEBVTT\n\n00:00:01.000 --> 00:00:03.000\nHello").data ++ '\n' :: '\n' ::
          ("badtime --> worse\nskip me").data)
      = video_pipeline._parse_vtt_transcript
          (("WEBVTT\n\n00:00:01.000 --> 00:00:03.000\nHello").data)
        ++ video_pipeline._parse_vtt_transcript
          (("badtime --> worse\nskip me").data) :=
  ⟨Or.inr (by decide), by decide,
   c3_parser_tolerance.2.2 _ _ (Or.inr (by decide)) (by decide)⟩

/-! ## C8: timestamp round-trip -/

/-- The fuelled floor used by the embedding agrees with Mathlib's floor. -/
theorem ratFloor_eq_floor (q : ℚ) : ratFloor q = ⌊q⌋ := by
  rw [ratFloor, Int.fdiv_eq_ediv _ (Int.natCast_nonneg q.den), Rat.floor_def]

/-- Digit characters round-trip through `digitCh`/`digitVal`. -/
theorem digitCh_facts {n : ℕ} (h : n < 10) :
    isDigitCh (digitCh n) = true ∧ digitVal (digitCh n) = n := by
  interval_cases n <;> exact ⟨by decide, by decide⟩

/-- `parseDigits` peels a trailing digit. -/
theorem parseDigits_snoc (a : List Char) (c : Char) :
    parseDigits (a ++ [c]) = 10 * parseDigits a + digitVal c := by
  simp [parseDigits, List.foldl_append]

/-- A leading `'0'` does not change the parsed value. -/
theorem parseDigits_cons_zero (l : List Char) :
    parseDigits ('0' :: l) = parseDigits l := by
  have h : 10 * 0 + digitVal '0' = 0 := by decide
  simp only [parseDigits, List.foldl_cons, h]

/-- With sufficient fuel, the decimal rendering is a nonempty digit string
whose parsed value is the rendered number. -/
theorem natToCharsAux_spec :
    ∀ fuel n, n < 10 ^ (fuel + 1) →
      natToCharsAux (fuel + 1) n ≠ []
      ∧ (natToCharsAux (fuel + 1) n).all isDigitCh = true
      ∧ parseDigits (natToCharsAux (fuel + 1) n) = n := by
  intro fuel
  induction fuel with
  | zero =>
    intro n hn
    have h10 : n < 10 := by simpa using hn
    simp only [natToCharsAux, if_pos h10]
    exact ⟨by simp, by simp [(digitCh_facts h10).1],
      by simp [parseDigits, (digitCh_facts h10).2]⟩
  | succ fuel ih =>
    intro n hn
    by_cases h10 : n < 10
    · simp only [natToCharsAux, if_pos h10]
      exact ⟨by simp, by simp [(digitCh_facts h10).1],
        by simp [parseDigits, (digitCh_facts h10).2]⟩
    · have hdiv : n / 10 < 10 ^ (fuel + 1) := by
        rw [Nat.div_lt_iff_lt_mul (by norm_num)]
        have hp : 10 ^ (fuel + 1 + 1) = 10 ^ (fuel + 1) * 10 := pow_succ 10 (fuel + 1)
        omega
      obtain ⟨hne, hall, hval⟩ := ih (n / 10) hdiv
      have hm : n % 10 < 10 := Nat.mod_lt _ (by norm_num)
      rw [natToCharsAux, if_neg h10]
      refine ⟨by simp, ?_, ?_⟩
      · simp [List.all_append, hall, (digitCh_facts hm).1]
      · rw [parseDigits_snoc, hval, (digitCh_facts hm).2]
        omega

/-- `natToChars` (Python `str` on a natural) is a nonempty digit string
parsing back to its argument: the fuel `n + 1` is always sufficient. -/
theorem natToChars_spec (n : ℕ) :
    natToChars n ≠ [] ∧ (natToChars n).all isDigitCh = true
    ∧ parseDigits (natToChars n) = n := by
  have h : n < 10 ^ (n + 1) :=
    lt_of_lt_of_le (Nat.lt_pow_self (by norm_num) n)
      (Nat.pow_le_pow_right (by norm_num) (Nat.le_succ n))
  exact natToCharsAux_spec n n h

/-- The zero-padded field rendering is a nonempty digit string parsing back
to its argument. -/
theorem pad2_spec (n : ℕ) :
    video_pipeline.pad2 n ≠ [] ∧ (video_pipeline.pad2 n).all isDigitCh = true
    ∧ parseDigits (video_pipeline.pad2 n) = n := by
  obtain ⟨h1, h2, h3⟩ := natToChars_spec n
  unfold video_pipeline.pad2
  split_ifs with hlt
  · refine ⟨by simp, ?_, ?_⟩
    · simp [h2]
      decide
    · rw [parseDigits_cons_zero, h3]
  · exact ⟨h1, h2, h3⟩

/-- A whitespace character has a code point below `48`, so no digit is
whitespace. -/
theorem toNat_lt_of_ws {c : Char} (h : isPyWs c = true) : c.toNat < 48 := by
  simp only [isPyWs, Bool.or_eq_true, decide_eq_true_eq] at h
  rcases h with ((((h1 | h1) | h1) | h1) | h1) | h1 <;> subst h1 <;> decide

/-- Digit characters are not Python whitespace. -/
theorem not_ws_of_digit {c : Char} (h : isDigitCh c = true) : isPyWs c = false := by
  by_contra hws
  rw [Bool.not_eq_false] at hws
  have hlt : c.toNat < 48 := toNat_lt_of_ws hws
  simp only [isDigitCh, Bool.and_eq_true, decide_eq_true_eq] at h
  omega

/-- A list of digits and colons contains no whitespace. -/
theorem no_ws_of_digits_colon {s : List Char}
    (h : ∀ c ∈ s, isDigitCh c = true ∨ c = ':') : ∀ c ∈ s, isPyWs c = false := by
  intro c hc
  rcases h c hc with hd | rfl
  · exact not_ws_of_digit hd
  · decide

/-- An all-digit list does not contain a colon. -/
theorem not_colon_mem_of_all_digits {l : List Char} (h : l.all isDigitCh = true) :
    ':' ∉ l := by
  intro hm
  exact absurd (List.all_eq_true.mp h _ hm) (by decide)

/-- `dropWhile` is the identity when no element satisfies the predicate. -/
theorem dropWhile_eq_self_of_all {p : Char → Bool} {l : List Char}
    (h : ∀ c ∈ l, p c = false) : l.dropWhile p = l := by
  cases l with
  | nil => rfl
  | cons c cs =>
    have hc : ¬ p c = true := by simp [h c (List.mem_cons_self _ _)]
    rw [List.dropWhile_cons, if_neg hc]

/-- `strip` is the identity on strings without whitespace. -/
theorem pyStrip_of_no_ws {l : List Char} (h : ∀ c ∈ l, isPyWs c = false) :
    pyStrip l = l := by
  unfold pyStrip
  rw [dropWhile_eq_self_of_all h, dropWhile_eq_self_of_all
    (fun c hc => h c (List.mem_reverse.mp hc)), List.reverse_reverse]

/-- `split` on a separator-free string yields that one piece. -/
theorem splitOnCh_no_sep {sep : Char} :
    ∀ {l : List Char}, sep ∉ l → splitOnCh sep l = [l] := by
  intro l
  induction l with
  | nil => intro h; rfl
  | cons c cs ih =>
    intro h
    have hc : ¬ c = sep := fun he => h (by rw [← he]; exact List.mem_cons_self _ _)
    simp only [splitOnCh, if_neg hc]
    rw [ih (fun hm => h (List.mem_cons_of_mem _ hm))]

/-- `split` peels a separator-free prefix followed by the separator. -/
theorem splitOnCh_append_sep {sep : Char} :
    ∀ {a : List Char} (rest : List Char), sep ∉ a →
      splitOnCh sep (a ++ sep :: rest) = a :: splitOnCh sep rest := by
  intro a
  induction a with
  | nil =>
    intro rest h
    rw [List.nil_append, splitOnCh, if_pos rfl]
  | cons c cs ih =>
    intro rest h
    have hc : ¬ c = sep := fun he => h (by rw [← he]; exact List.mem_cons_self _ _)
    rw [List.cons_append, splitOnCh, if_neg hc,
      ih rest (fun hm => h (List.mem_cons_of_mem _ hm))]

/-- `int(s)` on a nonempty all-digit string returns its decimal value. -/
theorem pyInt_digits {l : List Char} (hne : l ≠ []) (hall : l.all isDigitCh = true) :
    pyInt l = some ((parseDigits l : ℤ)) := by
  have hstrip : pyStrip l = l := pyStrip_of_no_ws (fun c hc =>
    not_ws_of_digit (List.all_eq_true.mp hall c hc))
  simp only [pyInt, hstrip]
  split
  · simp only [List.all_cons, Bool.and_eq_true] at hall
    exact absurd hall.1 (by decide)
  · simp only [List.all_cons, Bool.and_eq_true] at hall
    exact absurd hall.1 (by decide)
  · rw [if_pos (by simp [hne, hall])]

/-- The strict parser on a plain digit string: the `isdigit` fast path,
whose string-to-float conversion overflows to infinity. -/
theorem parse_ts_digits {s : List Char} (hne : s ≠ []) (hall : s.all isDigitCh = true) :
    video_pipeline.parse_timestamp_to_seconds s
      = some (pyOverflow (.fin ((parseDigits s : ℚ)))) := by
  have hstrip : pyStrip s = s := pyStrip_of_no_ws (fun c hc =>
    not_ws_of_digit (List.all_eq_true.mp hall c hc))
  have hdig : pyIsDigit s = true := by simp [pyIsDigit, hne, hall]
  simp only [video_pipeline.parse_timestamp_to_seconds, hstrip, if_neg hne, hdig, if_true]

/-- The strict parser on `MM:SS` with all-digit components: the combined
integer goes through the fallible int-to-float conversion. -/
theorem parse_ts_two {m sec : List Char}
    (hm1 : m ≠ []) (hm2 : m.all isDigitCh = true)
    (hs1 : sec ≠ []) (hs2 : sec.all isDigitCh = true) :
    video_pipeline.parse_timestamp_to_seconds (m ++ ':' :: sec)
      = pyFloatOfInt ((parseDigits m : ℤ) * 60 + (parseDigits sec : ℤ)) := by
  have hdc : ∀ c ∈ m ++ ':' :: sec, isDigitCh c = true ∨ c = ':' := by
    intro c hc
    rcases List.mem_append.mp hc with hcm | hcs
    · exact Or.inl (List.all_eq_true.mp hm2 c hcm)
    · rcases List.mem_cons.mp hcs with rfl | hcs2
      · exact Or.inr rfl
      · exact Or.inl (List.all_eq_true.mp hs2 c hcs2)
  have hstrip : pyStrip (m ++ ':' :: sec) = m ++ ':' :: sec :=
    pyStrip_of_no_ws (no_ws_of_digits_colon hdc)
  have hne : m ++ ':' :: sec ≠ [] := by simp
  have hmem : ':' ∈ m ++ ':' :: sec := by simp
  have hnall : (m ++ ':' :: sec).all isDigitCh = false := by
    cases hcase : (m ++ ':' :: sec).all isDigitCh with
    | false => rfl
    | true => exact absurd (List.all_eq_true.mp hcase ':' hmem) (by decide)
  have hdig : pyIsDigit (m ++ ':' :: sec) = false := by
    simp [pyIsDigit, hnall]
  have hsplit : splitCols (m ++ ':' :: sec) = [m, sec] := by
    unfold splitCols
    rw [splitOnCh_append_sep _ (not_colon_mem_of_all_digits hm2),
      splitOnCh_no_sep (not_colon_mem_of_all_digits hs2)]
  simp only [video_pipeline.parse_timestamp_to_seconds, hstrip, if_neg hne, hdig,
    Bool.false_eq_true, if_false, hsplit, pyInt_digits hm1 hm2, pyInt_digits hs1 hs2,
    Option.some_bind]
  rfl

/-- The strict parser on `HH:MM:SS` with all-digit components: the combined
integer goes through the fallible int-to-float conversion. -/
theorem parse_ts_three {hh m sec : List Char}
    (hh1 : hh ≠ []) (hh2 : hh.all isDigitCh = true)
    (hm1 : m ≠ []) (hm2 : m.all isDigitCh = true)
    (hs1 : sec ≠ []) (hs2 : sec.all isDigitCh = true) :
    video_pipeline.parse_timestamp_to_seconds (hh ++ ':' :: (m ++ ':' :: sec))
      = pyFloatOfInt ((parseDigits hh : ℤ) * 3600 + (parseDigits m : ℤ) * 60
          + (parseDigits sec : ℤ)) := by
  have hdc : ∀ c ∈ hh ++ ':' :: (m ++ ':' :: sec), isDigitCh c = true ∨ c = ':' := by
    intro c hc
    rcases List.mem_append.mp hc with hcm | hcs
    · exact Or.inl (List.all_eq_true.mp hh2 c hcm)
    · rcases List.mem_cons.mp hcs with rfl | hcs2
      · exact Or.inr rfl
      · rcases List.mem_append.mp hcs2 with hcm2 | hcs3
        · exact Or.inl (List.all_eq_true.mp hm2 c hcm2)
        · rcases List.mem_cons.mp hcs3 with rfl | hcs4
          · exact Or.inr rfl
          · exact Or.inl (List.all_eq_true.mp hs2 c hcs4)
  have hstrip : pyStrip (hh ++ ':' :: (m ++ ':' :: sec)) = hh ++ ':' :: (m ++ ':' :: sec) :=
    pyStrip_of_no_ws (no_ws_of_digits_colon hdc)
  have hne : hh ++ ':' :: (m ++ ':' :: sec) ≠ [] := by simp
  have hmem : ':' ∈ hh ++ ':' :: (m ++ ':' :: sec) := by simp
  have hnall : (hh ++ ':' :: (m ++ ':' :: sec)).all isDigitCh = false := by
    cases hcase : (hh ++ ':' :: (m ++ ':' :: sec)).all isDigitCh with
    | false => rfl
    | true => exact absurd (List.all_eq_true.mp hcase ':' hmem) (by decide)
  have hdig : pyIsDigit (hh ++ ':' :: (m ++ ':' :: sec)) = false := by
    simp [pyIsDigit, hnall]
  have hsplit : splitCols (hh ++ ':' :: (m ++ ':' :: sec)) = [hh, m, sec] := by
    unfold splitCols
    rw [splitOnCh_append_sep _ (not_colon_mem_of_all_digits hh2),
      splitOnCh_append_sep _ (not_colon_mem_of_all_digits hm2),
      splitOnCh_no_sep (not_colon_mem_of_all_digits hs2)]
  simp only [video_pipeline.parse_timestamp_to_seconds, hstrip, if_neg hne, hdig,
    Bool.false_eq_true, if_false, hsplit, pyInt_digits hh1 hh2, pyInt_digits hm1 hm2,
    pyInt_digits hs1 hs2, Option.some_bind]
  rfl

/-- `round` acts as the identity on integer-valued floats. -/
theorem pyRound_intCast (z : ℤ) : pyRound ((z : ℚ)) = z := by
  have h12 : Rat.div (1 : ℚ) 2 = 1 / 2 := rfl
  have hf : ratFloor ((z : ℚ)) = z := by
    unfold ratFloor
    rw [Rat.num_intCast, Rat.den_intCast]
    exact_mod_cast Int.fdiv_one z
  simp only [pyRound, hf, sub_self, h12]
  norm_num

/-- The float overflow bound is positive. -/
theorem pyFloatMax_pos : (0 : ℚ) < pyFloatMax := by
  unfold pyFloatMax
  positivity

/-- The int-to-float conversion succeeds on non-negative values below the
overflow bound. -/
theorem pyFloatOfInt_small {z : ℤ} (h0 : 0 ≤ z) (hlt : ((z : ℚ)) < pyFloatMax) :
    pyFloatOfInt z = some (.fin ((z : ℚ))) := by
  unfold pyFloatOfInt
  rw [if_neg]
  rintro (h | h)
  · exact absurd hlt (not_lt.mpr h)
  · have h1 : (0 : ℚ) ≤ ((z : ℚ)) := by exact_mod_cast h0
    have h2 := pyFloatMax_pos
    linarith

/-- A finite result of the int-to-float conversion is the exact value,
below the overflow bound. -/
theorem pyFloatOfInt_fin {z : ℤ} {q : ℚ} (h : pyFloatOfInt z = some (.fin q)) :
    q = ((z : ℚ)) ∧ ((z : ℚ)) < pyFloatMax := by
  unfold pyFloatOfInt at h
  split_ifs at h with hcond
  push_neg at hcond
  injection h with h
  injection h with h
  exact ⟨h.symm, hcond.1⟩

/-- A finite result of the overflow check is the exact value, below the
overflow bound. -/
theorem pyOverflow_fin {x q : ℚ} (h : pyOverflow (.fin x) = .fin q) :
    q = x ∧ x < pyFloatMax := by
  simp only [pyOverflow] at h
  split_ifs at h with h1 h2
  injection h with h
  exact ⟨h.symm, not_le.mp h1⟩

/-- Formatting a non-negative whole number of seconds below the overflow
bound succeeds, and parsing the rendering recovers the number. -/
theorem parse_format_int {v : ℤ} (hv : 0 ≤ v) (hlt : ((v : ℚ)) < pyFloatMax) :
    ∃ out, video_pipeline.format_timestamp (.fin ((v : ℚ))) = some out
      ∧ video_pipeline.parse_timestamp_to_seconds out = some (.fin ((v : ℚ))) := by
  obtain ⟨n, rfl⟩ := Int.eq_ofNat_of_zero_le hv
  have hfmt : video_pipeline.format_timestamp (.fin (((n : ℤ) : ℚ)))
      = some (video_pipeline.pad2 (n / 3600)
          ++ ':' :: (video_pipeline.pad2 (n % 3600 / 60)
          ++ ':' :: video_pipeline.pad2 (n % 60))) := by
    simp only [video_pipeline.format_timestamp, pyRound_intCast, Int.toNat_natCast,
      List.cons_append, List.append_assoc]
  refine ⟨_, hfmt, ?_⟩
  obtain ⟨ph1, ph2, ph3⟩ := pad2_spec (n / 3600)
  obtain ⟨pm1, pm2, pm3⟩ := pad2_spec (n % 3600 / 60)
  obtain ⟨ps1, ps2, ps3⟩ := pad2_spec (n % 60)
  rw [parse_ts_three ph1 ph2 pm1 pm2 ps1 ps2, ph3, pm3, ps3]
  have hval : ((n / 3600 : ℕ) : ℤ) * 3600 + ((n % 3600 / 60 : ℕ) : ℤ) * 60
      + ((n % 60 : ℕ) : ℤ) = ((n : ℤ)) := by omega
  rw [hval]
  exact pyFloatOfInt_small hv hlt

/-- C8 counterexample: the plain digit string `"1" ++ 309 * "0"` is a valid
whole-second timestamp, but the strict parse overflows the string-to-float
conversion to infinity, and formatting that parse result raises
(`round(inf)` is an `OverflowError`), so `parse(format(parse(s)))` raises
instead of returning `parse(s)`; with the same huge field as the minutes of
an `MM:SS` form, `parse` itself already raises in `float(int(m)*60+int(s))`. -/
theorem c8_counterexample :
    ValidWholeTs ('1' :: List.replicate 309 '0')
    ∧ video_pipeline.parse_timestamp_to_seconds ('1' :: List.replicate 309 '0')
        = some .inf
    ∧ video_pipeline.format_timestamp .inf = none
    ∧ video_pipeline.parse_timestamp_to_seconds
        (('1' :: List.replicate 309 '0') ++ ':' :: ('0' :: '0' :: [])) = none := by
  exact ⟨Or.inl ⟨by decide, by decide⟩, by decide, rfl, by decide⟩

/-- C8 (amended): for every valid whole-second timestamp string (plain
digit string, `MM:SS`, or `HH:MM:SS` with all-digit components) whose
strict parse returns a finite float — digit strings beyond the double
range overflow to infinity and colon forms beyond it raise, breaking the
round trip (see the counterexample) — the parsed value is non-negative,
formatting it succeeds, and re-parsing the rendering returns exactly the
parsed value: `parse (format (parse s)) = parse s` on the non-overflowing
domain. -/
theorem c8_roundtrip (s : List Char) (q : ℚ) (h : ValidWholeTs s)
    (hp : video_pipeline.parse_timestamp_to_seconds s = some (.fin q)) :
    0 ≤ q ∧ ∃ out, video_pipeline.format_timestamp (.fin q) = some out
      ∧ video_pipeline.parse_timestamp_to_seconds out = some (.fin q) := by
  rcases h with ⟨hne, hall⟩ | ⟨m, sec, rfl, hm1, hm2, hs1, hs2⟩
    | ⟨hh, m, sec, rfl, hh1, hh2, hm1, hm2, hs1, hs2⟩
  · rw [parse_ts_digits hne hall] at hp
    injection hp with hp
    obtain ⟨hq, hlt⟩ := pyOverflow_fin hp
    subst hq
    have hcast : ((((parseDigits s : ℤ)) : ℚ)) = ((parseDigits s : ℚ)) := by
      push_cast
      rfl
    refine ⟨Nat.cast_nonneg _, ?_⟩
    have hres := parse_format_int (Int.natCast_nonneg (parseDigits s))
      (by rw [hcast]; exact hlt)
    rw [hcast] at hres
    exact hres
  · rw [parse_ts_two hm1 hm2 hs1 hs2] at hp
    obtain ⟨hq, hlt⟩ := pyFloatOfInt_fin hp
    subst hq
    have h0 : (0 : ℤ) ≤ (parseDigits m : ℤ) * 60 + (parseDigits sec : ℤ) := by positivity
    exact ⟨by exact_mod_cast h0, parse_format_int h0 hlt⟩
  · simp only [List.append_assoc, List.cons_append] at hp
    rw [parse_ts_three hh1 hh2 hm1 hm2 hs1 hs2] at hp
    obtain ⟨hq, hlt⟩ := pyFloatOfInt_fin hp
    subst hq
    have h0 : (0 : ℤ) ≤ (parseDigits hh : ℤ) * 3600 + (parseDigits m : ℤ) * 60
        + (parseDigits sec : ℤ) := by positivity
    exact ⟨by exact_mod_cast h0, parse_format_int h0 hlt⟩

/-- Witness for C8 at the concrete valid string `"7:05"` (value `425`). -/
theorem c8_roundtrip_witness :
    (ValidWholeTs (("7:05").data)
      ∧ video_pipeline.parse_timestamp_to_seconds (("7:05").data) = some (.fin 425))
    ∧ 0 ≤ (425 : ℚ) ∧ ∃ out, video_pipeline.format_timestamp (.fin 425) = some out
      ∧ video_pipeline.parse_timestamp_to_seconds out = some (.fin 425) :=
  have hv : ValidWholeTs (("7:05").data) :=
    Or.inr (Or.inl ⟨("7").data, ("05").data, by decide, by decide, by decide,
      by decide, by decide⟩)
  have hp : video_pipeline.parse_timestamp_to_seconds (("7:05").data)
      = some (.fin 425) := by decide
  ⟨⟨hv, hp⟩, c8_roundtrip (("7:05").data) 425 hv hp⟩

/-! ## C4: embedded-timestamp extraction -/

/-- C4 counterexample: on free text with an embedded `MM:SS`, the strict
codec of `video_pipeline` raises (`none`) — the extraction behaviour the
claim attributes to it actually lives in the lenient codec of
`audio_transcriber`, which returns `83.0` here. -/
theorem c4_counterexample :
    video_pipeline.parse_timestamp_to_seconds (("at 01:23 in the video").data) = none
    ∧ audio_transcriber._parse_timestamp_to_seconds (.str (("at 01:23 in the video").data))
      = some (.fin 83) := by
  exact ⟨by decide, by decide⟩

/-- Digit characters are not the colon. -/
theorem ne_colon_of_digit {c : Char} (h : isDigitCh c = true) : ¬ c = ':' := by
  intro he
  rw [he] at h
  exact absurd h (by decide)

/-- Digit characters have value at most `9`. -/
theorem digitVal_le_of_digit {c : Char} (h : isDigitCh c = true) : digitVal c ≤ 9 := by
  simp only [isDigitCh, Bool.and_eq_true, decide_eq_true_eq] at h
  unfold digitVal
  omega

/-- Lower-casing fixes digit characters. -/
theorem lowerCh_digit {c : Char} (h : isDigitCh c = true) : lowerCh c = c := by
  simp only [isDigitCh, Bool.and_eq_true, decide_eq_true_eq] at h
  have hc : ¬ ((65 ≤ c.toNat && c.toNat ≤ 90) = true) := by
    simp only [Bool.and_eq_true, decide_eq_true_eq]
    omega
  unfold lowerCh
  rw [if_neg hc]

/-- Lower-casing fixes all-digit strings. -/
theorem map_lowerCh_digits {l : List Char} (h : l.all isDigitCh = true) :
    l.map lowerCh = l := by
  have hmap : l.map lowerCh = l.map id :=
    List.map_congr_left fun c hc => lowerCh_digit (List.all_eq_true.mp h c hc)
  rw [hmap, List.map_id]

/-- The parsed value of a two-digit run. -/
theorem parseDigits_two (a b : Char) :
    parseDigits [a, b] = 10 * digitVal a + digitVal b := by
  simp [parseDigits]

/-- The parsed value of a one-digit run. -/
theorem parseDigits_one (a : Char) : parseDigits [a] = digitVal a := by
  simp [parseDigits]

/-- `float(s)` on a nonempty all-digit string below the overflow bound
returns the exact finite value. -/
theorem pyFloatOfStr_digits {l : List Char} (hne : l ≠ [])
    (hall : l.all isDigitCh = true) (hlt : parseDigits l < 2 ^ 1024) :
    pyFloatOfStr l = some (.fin ((parseDigits l : ℚ))) := by
  have hstrip : pyStrip l = l := pyStrip_of_no_ws (fun c hc =>
    not_ws_of_digit (List.all_eq_true.mp hall c hc))
  have hlow : l.map lowerCh = l := map_lowerCh_digits hall
  have hni : ∀ w : List Char, 'i' ∈ w ∨ 'n' ∈ w → l ≠ w := by
    intro w hw he
    subst he
    rcases hw with hw | hw
    · exact absurd (List.all_eq_true.mp hall 'i' hw) (by decide)
    · exact absurd (List.all_eq_true.mp hall 'n' hw) (by decide)
  have hspan : l.span (fun c => decide (lowerCh c ≠ 'e')) = (l, []) := by
    rw [List.span_eq_take_drop]
    have hp : ∀ c ∈ l, decide (lowerCh c ≠ 'e') = true := by
      intro c hc
      have hd := List.all_eq_true.mp hall c hc
      simp only [decide_eq_true_eq, lowerCh_digit hd]
      intro he
      rw [he] at hd
      exact absurd hd (by decide)
    rw [List.takeWhile_eq_self_iff.mpr hp, List.dropWhile_eq_nil_iff.mpr hp]
  have hmant : parseDecMantissa l = some ((parseDigits l : ℚ)) := by
    have hdot : '.' ∉ l := by
      intro hm
      exact absurd (List.all_eq_true.mp hall '.' hm) (by decide)
    simp only [parseDecMantissa, splitOnCh_no_sep hdot]
    rw [if_pos (by simp [hne, hall])]
  have hbody : pyFloatBody l = some (.fin ((parseDigits l : ℚ))) := by
    have hinf : ¬ ((decide (l = ("inf").data) || decide (l = ("infinity").data)) = true) := by
      simp only [Bool.or_eq_true, decide_eq_true_eq]
      rintro (h | h)
      · exact hni (("inf").data) (Or.inl (by decide)) h
      · exact hni (("infinity").data) (Or.inl (by decide)) h
    have hnan : ¬ (l = ("nan").data) := hni (("nan").data) (Or.inr (by decide))
    simp only [pyFloatBody, hlow]
    rw [if_neg hinf, if_neg hnan]
    simp only [splitExp, hspan, hmant]
    rfl
  have hof : pyOverflow (.fin ((parseDigits l : ℚ))) = .fin ((parseDigits l : ℚ)) := by
    have hb1 : ¬ ((parseDigits l : ℚ) ≥ pyFloatMax) := by
      rw [not_le]
      unfold pyFloatMax
      exact_mod_cast hlt
    have hb2 : ¬ ((parseDigits l : ℚ) ≤ -pyFloatMax) := by
      rw [not_le]
      have hpos : (0 : ℚ) < pyFloatMax := by
        unfold pyFloatMax
        positivity
      have : (0 : ℚ) ≤ ((parseDigits l : ℚ)) := Nat.cast_nonneg _
      linarith
    simp only [pyOverflow, if_neg hb1, if_neg hb2]
  cases hl : l with
  | nil => exact absurd hl hne
  | cons c cs =>
    rw [← hl]
    have hcd : isDigitCh c = true := by
      rw [hl] at hall
      simp only [List.all_cons, Bool.and_eq_true] at hall
      exact hall.1
    simp only [pyFloatOfStr, hstrip]
    rw [hl]
    split
    · rename_i heq
      injection heq with h1 h2
      rw [h1] at hcd
      exact absurd hcd (by decide)
    · rename_i heq
      injection heq with h1 h2
      rw [h1] at hcd
      exact absurd hcd (by decide)
    · rw [← hl, hbody]
      exact congrArg some hof

/-- `int()` truncation on a natural-valued float. -/
theorem pyTrunc_natCast (n : ℕ) : pyTrunc (.fin ((n : ℚ))) = some ((n : ℤ)) := by
  simp only [pyTrunc]
  rw [Rat.num_natCast, Rat.den_natCast, Nat.cast_one, Int.tdiv_one]

/-- Soundness of the greedy long-form matcher: it returns a timestamp
pattern that prefixes its input. -/
theorem tsLong2_sound {l p : List Char} (h : audio_transcriber.tsLong2 l = some p) :
    isTsPat p = true ∧ ∃ rest, l = p ++ rest := by
  unfold audio_transcriber.tsLong2 at h
  split at h
  · rename_i a b c d e f t
    split_ifs at h with hcond
    injection h with h
    subst h
    exact ⟨by simpa [isTsPat] using hcond, t, rfl⟩
  · exact Option.noConfusion h

/-- Soundness of the one-digit long-form matcher. -/
theorem tsLong1_sound {l p : List Char} (h : audio_transcriber.tsLong1 l = some p) :
    isTsPat p = true ∧ ∃ rest, l = p ++ rest := by
  unfold audio_transcriber.tsLong1 at h
  split at h
  · rename_i a c d e f t
    split_ifs at h with hcond
    injection h with h
    subst h
    exact ⟨by simpa [isTsPat] using hcond, t, rfl⟩
  · exact Option.noConfusion h

/-- Soundness of the greedy short-form matcher. -/
theorem tsShort2_sound {l p : List Char} (h : audio_transcriber.tsShort2 l = some p) :
    isTsPat p = true ∧ ∃ rest, l = p ++ rest := by
  unfold audio_transcriber.tsShort2 at h
  split at h
  · rename_i a b c d t
    split_ifs at h with hcond
    injection h with h
    subst h
    exact ⟨by simpa [isTsPat] using hcond, t, rfl⟩
  · exact Option.noConfusion h

/-- Soundness of the one-digit short-form matcher. -/
theorem tsShort1_sound {l p : List Char} (h : audio_transcriber.tsShort1 l = some p) :
    isTsPat p = true ∧ ∃ rest, l = p ++ rest := by
  unfold audio_transcriber.tsShort1 at h
  split at h
  · rename_i a c d t
    split_ifs at h with hcond
    injection h with h
    subst h
    exact ⟨by simpa [isTsPat] using hcond, t, rfl⟩
  · exact Option.noConfusion h

/-- Soundness of an anchored regex attempt: a successful match is a
timestamp pattern prefixing the input. -/
theorem matchTsAt_sound {l p : List Char}
    (h : audio_transcriber.matchTsAt l = some p) :
    isTsPat p = true ∧ ∃ rest, l = p ++ rest := by
  unfold audio_transcriber.matchTsAt at h
  cases h2 : audio_transcriber.tsLong2 l with
  | some m =>
    simp only [h2] at h
    injection h with h
    subst h
    exact tsLong2_sound h2
  | none =>
    simp only [h2] at h
    cases h1 : audio_transcriber.tsLong1 l with
    | some m =>
      simp only [h1] at h
      injection h with h
      subst h
      exact tsLong1_sound h1
    | none =>
      simp only [h1] at h
      cases hs2 : audio_transcriber.tsShort2 l with
      | some m =>
        simp only [hs2] at h
        injection h with h
        subst h
        exact tsShort2_sound hs2
      | none =>
        simp only [hs2] at h
        exact tsShort1_sound h

/-- Soundness and leftmost-ness of the modelled `re.search`: the returned
match is a timestamp pattern occurring at a position before which every
anchored attempt fails. -/
theorem regexSearchTs_sound :
    ∀ {s p : List Char}, audio_transcriber.regexSearchTs s = some p →
      isTsPat p = true ∧ ∃ i rest, s.drop i = p ++ rest
        ∧ ∀ j < i, audio_transcriber.matchTsAt (s.drop j) = none := by
  intro s
  induction s with
  | nil => intro p h; exact Option.noConfusion h
  | cons c cs ih =>
    intro p h
    unfold audio_transcriber.regexSearchTs at h
    cases hm : audio_transcriber.matchTsAt (c :: cs) with
    | some m =>
      simp only [hm] at h
      injection h with h
      subst h
      obtain ⟨hpat, rest, hrest⟩ := matchTsAt_sound hm
      exact ⟨hpat, 0, rest, hrest, fun j hj => absurd hj (Nat.not_lt_zero j)⟩
    | none =>
      simp only [hm] at h
      obtain ⟨hpat, i, rest, hdrop, hnone⟩ := ih h
      refine ⟨hpat, i + 1, rest, hdrop, ?_⟩
      intro j hj
      cases j with
      | zero => exact hm
      | succ k => exact hnone k (Nat.lt_of_succ_lt_succ hj)

/-- The four concrete shapes of a timestamp pattern. -/
theorem isTsPat_shapes {p : List Char} (h : isTsPat p = true) :
    (∃ a b c d e f, p = [a, b, ':', c, d, ':', e, f]
      ∧ isDigitCh a = true ∧ isDigitCh b = true ∧ isDigitCh c = true
      ∧ isDigitCh d = true ∧ isDigitCh e = true ∧ isDigitCh f = true)
    ∨ (∃ a c d e f, p = [a, ':', c, d, ':', e, f]
      ∧ isDigitCh a = true ∧ isDigitCh c = true ∧ isDigitCh d = true
      ∧ isDigitCh e = true ∧ isDigitCh f = true)
    ∨ (∃ a b c d, p = [a, b, ':', c, d]
      ∧ isDigitCh a = true ∧ isDigitCh b = true ∧ isDigitCh c = true ∧ isDigitCh d = true)
    ∨ (∃ a c d, p = [a, ':', c, d]
      ∧ isDigitCh a = true ∧ isDigitCh c = true ∧ isDigitCh d = true) := by
  unfold isTsPat at h
  split at h
  · rename_i a b c d e f
    obtain ⟨⟨⟨⟨⟨h1, h2⟩, h3⟩, h4⟩, h5⟩, h6⟩ := by simpa only [Bool.and_eq_true] using h
    exact Or.inl ⟨a, b, c, d, e, f, rfl, h1, h2, h3, h4, h5, h6⟩
  · rename_i a c d e f
    obtain ⟨⟨⟨⟨h1, h2⟩, h3⟩, h4⟩, h5⟩ := by simpa only [Bool.and_eq_true] using h
    exact Or.inr (Or.inl ⟨a, c, d, e, f, rfl, h1, h2, h3, h4, h5⟩)
  · rename_i a b c d
    obtain ⟨⟨⟨h1, h2⟩, h3⟩, h4⟩ := by simpa only [Bool.and_eq_true] using h
    exact Or.inr (Or.inr (Or.inl ⟨a, b, c, d, rfl, h1, h2, h3, h4⟩))
  · rename_i a c d
    obtain ⟨⟨h1, h2⟩, h3⟩ := by simpa only [Bool.and_eq_true] using h
    exact Or.inr (Or.inr (Or.inr ⟨a, c, d, rfl, h1, h2, h3⟩))
  · exact absurd h (by decide)

/-- Completeness of an anchored regex attempt: at a position where a
timestamp pattern starts, some alternative matches. -/
theorem matchTsAt_of_isTsPat {p : List Char} (h : isTsPat p = true) (post : List Char) :
    (audio_transcriber.matchTsAt (p ++ post)).isSome = true := by
  rcases isTsPat_shapes h with
      ⟨a, b, c, d, e, f, rfl, ha, hb, hc, hd, he, hf⟩
    | ⟨a, c, d, e, f, rfl, ha, hc, hd, he, hf⟩
    | ⟨a, b, c, d, rfl, ha, hb, hc, hd⟩
    | ⟨a, c, d, rfl, ha, hc, hd⟩
  · have h2 : audio_transcriber.tsLong2 (a :: b :: ':' :: c :: d :: ':' :: e :: f :: post)
        = some [a, b, ':', c, d, ':', e, f] := by
      simp only [audio_transcriber.tsLong2]
      rw [if_pos (by simp [ha, hb, hc, hd, he, hf])]
    simp [audio_transcriber.matchTsAt, h2]
  · cases h2 : audio_transcriber.tsLong2 (a :: ':' :: c :: d :: ':' :: e :: f :: post) with
    | some m => simp [audio_transcriber.matchTsAt, h2]
    | none =>
      have h1 : audio_transcriber.tsLong1 (a :: ':' :: c :: d :: ':' :: e :: f :: post)
          = some [a, ':', c, d, ':', e, f] := by
        simp only [audio_transcriber.tsLong1]
        rw [if_pos (by simp [ha, hc, hd, he, hf])]
      simp [audio_transcriber.matchTsAt, h2, h1]
  · cases h2 : audio_transcriber.tsLong2 (a :: b :: ':' :: c :: d :: post) with
    | some m => simp [audio_transcriber.matchTsAt, h2]
    | none =>
      cases h1 : audio_transcriber.tsLong1 (a :: b :: ':' :: c :: d :: post) with
      | some m => simp [audio_transcriber.matchTsAt, h2, h1]
      | none =>
        have hs2 : audio_transcriber.tsShort2 (a :: b :: ':' :: c :: d :: post)
            = some [a, b, ':', c, d] := by
          simp only [audio_transcriber.tsShort2]
          rw [if_pos (by simp [ha, hb, hc, hd])]
        simp [audio_transcriber.matchTsAt, h2, h1, hs2]
  · cases h2 : audio_transcriber.tsLong2 (a :: ':' :: c :: d :: post) with
    | some m => simp [audio_transcriber.matchTsAt, h2]
    | none =>
      cases h1 : audio_transcriber.tsLong1 (a :: ':' :: c :: d :: post) with
      | some m => simp [audio_transcriber.matchTsAt, h2, h1]
      | none =>
        cases hs2 : audio_transcriber.tsShort2 (a :: ':' :: c :: d :: post) with
        | some m => simp [audio_transcriber.matchTsAt, h2, h1, hs2]
        | none =>
          have hs1 : audio_transcriber.tsShort1 (a :: ':' :: c :: d :: post)
              = some [a, ':', c, d] := by
            simp only [audio_transcriber.tsShort1]
            rw [if_pos (by simp [ha, hc, hd])]
          simp [audio_transcriber.matchTsAt, h2, h1, hs2, hs1]

/-- Completeness of the modelled `re.search`: a successful anchored attempt
anywhere makes the search succeed. -/
theorem regexSearchTs_complete :
    ∀ (pre t : List Char), (audio_transcriber.matchTsAt t).isSome = true →
      (audio_transcriber.regexSearchTs (pre ++ t)).isSome = true := by
  intro pre
  induction pre with
  | nil =>
    intro t h
    cases t with
    | nil => exact absurd h (by decide)
    | cons c cs =>
      rw [List.nil_append]
      unfold audio_transcriber.regexSearchTs
      cases hm : audio_transcriber.matchTsAt (c :: cs) with
      | some m => simp [hm]
      | none =>
        rw [hm] at h
        exact absurd h (by decide)
  | cons c pre ih =>
    intro t h
    rw [List.cons_append]
    unfold audio_transcriber.regexSearchTs
    cases hm : audio_transcriber.matchTsAt (c :: (pre ++ t)) with
    | some m => simp [hm]
    | none =>
      simp only [hm]
      exact ih t h

/-- Monadic bind on `Option` of a `some` (stated in the `do`-notation form
used by the embedded adapters). -/
theorem option_bind_some {a : Type} {b : Type} (x : a) (f : a → Option b) :
    ((some x : Option a) >>= f) = f x := rfl

/-- `str(value or "")` of a string value is the string itself. -/
theorem pyStr_pyOr_str (s : List Char) : pyStr (pyOr (.str s) (.str [])) = s := by
  by_cases hs : s = []
  · subst hs
    rfl
  · have ht : jTruthy (.str s) = true := by simp [jTruthy, hs]
    simp [pyOr, ht, pyStr]

/-- The lenient codec when the extracted string splits into two nonempty
all-digit fields: minutes and seconds are combined exactly. -/
theorem lenient_split_two {s p u v : List Char}
    (hne : pyStrip s ≠ []) (hnd : pyIsDigit (pyStrip s) = false)
    (hsearch : audio_transcriber.regexSearchTs (pyStrip s) = some p)
    (hsplit : splitCols p = [u, v])
    (hu1 : u ≠ []) (hu2 : u.all isDigitCh = true) (hub : parseDigits u < 2 ^ 1024)
    (hv1 : v ≠ []) (hv2 : v.all isDigitCh = true) (hvb : parseDigits v < 2 ^ 1024) :
    audio_transcriber._parse_timestamp_to_seconds (.str s)
      = some (.fin ((((parseDigits u : ℤ)) : ℚ) * 60 + ((parseDigits v : ℚ)))) := by
  have hraw : pyStr (pyOr (.str s) (.str [])) = s := pyStr_pyOr_str s
  have hfu := pyFloatOfStr_digits hu1 hu2 hub
  have hfv := pyFloatOfStr_digits hv1 hv2 hvb
  have hnu : audio_transcriber._is_number u = true := by
    simp [audio_transcriber._is_number, hfu]
  have hnv : audio_transcriber._is_number v = true := by
    simp [audio_transcriber._is_number, hfv]
  simp only [audio_transcriber._parse_timestamp_to_seconds, hraw, if_neg hne, hnd,
    Bool.false_eq_true, if_false, hsearch, hsplit]
  rw [if_pos (by simp [hnu, hnv])]
  simp only [hfu, hfv, option_bind_some, pyTrunc_natCast]
  rfl

/-- The lenient codec when the extracted string splits into three nonempty
all-digit fields: hours, minutes and seconds are combined exactly. -/
theorem lenient_split_three {s p u v w : List Char}
    (hne : pyStrip s ≠ []) (hnd : pyIsDigit (pyStrip s) = false)
    (hsearch : audio_transcriber.regexSearchTs (pyStrip s) = some p)
    (hsplit : splitCols p = [u, v, w])
    (hu1 : u ≠ []) (hu2 : u.all isDigitCh = true) (hub : parseDigits u < 2 ^ 1024)
    (hv1 : v ≠ []) (hv2 : v.all isDigitCh = true) (hvb : parseDigits v < 2 ^ 1024)
    (hw1 : w ≠ []) (hw2 : w.all isDigitCh = true) (hwb : parseDigits w < 2 ^ 1024) :
    audio_transcriber._parse_timestamp_to_seconds (.str s)
      = some (.fin ((((parseDigits u : ℤ)) : ℚ) * 3600
          + (((parseDigits v : ℤ)) : ℚ) * 60 + ((parseDigits w : ℚ)))) := by
  have hraw : pyStr (pyOr (.str s) (.str [])) = s := pyStr_pyOr_str s
  have hfu := pyFloatOfStr_digits hu1 hu2 hub
  have hfv := pyFloatOfStr_digits hv1 hv2 hvb
  have hfw := pyFloatOfStr_digits hw1 hw2 hwb
  have hnu : audio_transcriber._is_number u = true := by
    simp [audio_transcriber._is_number, hfu]
  have hnv : audio_transcriber._is_number v = true := by
    simp [audio_transcriber._is_number, hfv]
  have hnw : audio_transcriber._is_number w = true := by
    simp [audio_transcriber._is_number, hfw]
  simp only [audio_transcriber._parse_timestamp_to_seconds, hraw, if_neg hne, hnd,
    Bool.false_eq_true, if_false, hsearch, hsplit]
  rw [if_pos (by simp [hnu, hnv, hnw])]
  simp only [hfu, hfv, hfw, option_bind_some, pyTrunc_natCast]
  rfl

/-- A one-digit field contains no colon. -/
theorem not_colon_single {a : Char} (ha : isDigitCh a = true) : ':' ∉ [a] := by
  intro hm
  rcases List.mem_cons.mp hm with h | hm2
  · exact ne_colon_of_digit ha h.symm
  · exact List.not_mem_nil _ hm2

/-- A two-digit field contains no colon. -/
theorem not_colon_pair {a b : Char} (ha : isDigitCh a = true) (hb : isDigitCh b = true) :
    ':' ∉ [a, b] := by
  intro hm
  rcases List.mem_cons.mp hm with h | hm2
  · exact ne_colon_of_digit ha h.symm
  · rcases List.mem_cons.mp hm2 with h | hm3
    · exact ne_colon_of_digit hb h.symm
    · exact List.not_mem_nil _ hm3

/-- One-digit fields stay far below the float overflow bound. -/
theorem parseDigits_one_lt {a : Char} (ha : isDigitCh a = true) :
    parseDigits [a] < 2 ^ 1024 := by
  rw [parseDigits_one]
  have h1 := digitVal_le_of_digit ha
  have h2 : (100 : ℕ) ≤ 2 ^ 1024 := by norm_num
  omega

/-- Two-digit fields stay far below the float overflow bound. -/
theorem parseDigits_two_lt {a b : Char} (ha : isDigitCh a = true)
    (hb : isDigitCh b = true) : parseDigits [a, b] < 2 ^ 1024 := by
  rw [parseDigits_two]
  have h1 := digitVal_le_of_digit ha
  have h2 := digitVal_le_of_digit hb
  have h3 : (100 : ℕ) ≤ 2 ^ 1024 := by norm_num
  omega

/-- C4 (amended): the embedded-timestamp extraction the claim describes is
performed by the lenient codec of `audio_transcriber`, not by the strict
codec of `video_pipeline` (which raises on such free text — see the
counterexample): whenever a timestamp pattern occurs anywhere in a string
the modelled `re.search` succeeds; any returned match is a timestamp
pattern at the leftmost matchable position; and on a stripped non-digit
input with a regex match the lenient codec returns exactly that match's
`HH*3600 + MM*60 + SS` (or `MM*60 + SS`) value in seconds. -/
theorem c4_lenient_extraction :
    (∀ (s pre p post : List Char), isTsPat p = true → s = pre ++ (p ++ post) →
      (audio_transcriber.regexSearchTs s).isSome = true)
    ∧ (∀ s p, audio_transcriber.regexSearchTs s = some p →
        isTsPat p = true ∧ ∃ i rest, s.drop i = p ++ rest
          ∧ ∀ j < i, audio_transcriber.matchTsAt (s.drop j) = none)
    ∧ (∀ (s p : List Char), pyStrip s ≠ [] → pyIsDigit (pyStrip s) = false →
        audio_transcriber.regexSearchTs (pyStrip s) = some p →
        audio_transcriber._parse_timestamp_to_seconds (.str s)
          = some (.fin (tsPatVal p))) := by
  refine ⟨?_, ?_, ?_⟩
  · intro s pre p post hpat hs
    subst hs
    exact regexSearchTs_complete pre (p ++ post) (matchTsAt_of_isTsPat hpat post)
  · intro s p h
    exact regexSearchTs_sound h
  · intro s p hne hnd hsearch
    have hpat : isTsPat p = true := (regexSearchTs_sound hsearch).1
    rcases isTsPat_shapes hpat with
        ⟨a, b, c, d, e, f, rfl, ha, hb, hc, hd, he, hf⟩
      | ⟨a, c, d, e, f, rfl, ha, hc, hd, he, hf⟩
      | ⟨a, b, c, d, rfl, ha, hb, hc, hd⟩
      | ⟨a, c, d, rfl, ha, hc, hd⟩
    · have hsp : splitCols [a, b, ':', c, d, ':', e, f] = [[a, b], [c, d], [e, f]] := by
        show splitOnCh ':' ([a, b] ++ ':' :: ([c, d] ++ ':' :: [e, f])) = _
        rw [splitOnCh_append_sep _ (not_colon_pair ha hb),
          splitOnCh_append_sep _ (not_colon_pair hc hd),
          splitOnCh_no_sep (not_colon_pair he hf)]
      rw [lenient_split_three hne hnd hsearch hsp (by simp) (by simp [ha, hb])
        (parseDigits_two_lt ha hb) (by simp) (by simp [hc, hd]) (parseDigits_two_lt hc hd)
        (by simp) (by simp [he, hf]) (parseDigits_two_lt he hf)]
      congr 2
      simp only [tsPatVal]
      rw [parseDigits_two, parseDigits_two, parseDigits_two]
      push_cast
      ring
    · have hsp : splitCols [a, ':', c, d, ':', e, f] = [[a], [c, d], [e, f]] := by
        show splitOnCh ':' ([a] ++ ':' :: ([c, d] ++ ':' :: [e, f])) = _
        rw [splitOnCh_append_sep _ (not_colon_single ha),
          splitOnCh_append_sep _ (not_colon_pair hc hd),
          splitOnCh_no_sep (not_colon_pair he hf)]
      rw [lenient_split_three hne hnd hsearch hsp (by simp) (by simp [ha])
        (parseDigits_one_lt ha) (by simp) (by simp [hc, hd]) (parseDigits_two_lt hc hd)
        (by simp) (by simp [he, hf]) (parseDigits_two_lt he hf)]
      congr 2
      simp only [tsPatVal]
      rw [parseDigits_one, parseDigits_two, parseDigits_two]
      push_cast
      ring
    · have hsp : splitCols [a, b, ':', c, d] = [[a, b], [c, d]] := by
        show splitOnCh ':' ([a, b] ++ ':' :: [c, d]) = _
        rw [splitOnCh_append_sep _ (not_colon_pair ha hb),
          splitOnCh_no_sep (not_colon_pair hc hd)]
      rw [lenient_split_two hne hnd hsearch hsp (by simp) (by simp [ha, hb])
        (parseDigits_two_lt ha hb) (by simp) (by simp [hc, hd]) (parseDigits_two_lt hc hd)]
      congr 2
      simp only [tsPatVal]
      rw [parseDigits_two, parseDigits_two]
      push_cast
      ring
    · have hsp : splitCols [a, ':', c, d] = [[a], [c, d]] := by
        show splitOnCh ':' ([a] ++ ':' :: [c, d]) = _
        rw [splitOnCh_append_sep _ (not_colon_single ha),
          splitOnCh_no_sep (not_colon_pair hc hd)]
      rw [lenient_split_two hne hnd hsearch hsp (by simp) (by simp [ha])
        (parseDigits_one_lt ha) (by simp) (by simp [hc, hd]) (parseDigits_two_lt hc hd)]
      congr 2
      simp only [tsPatVal]
      rw [parseDigits_one, parseDigits_two]
      push_cast
      ring

/-- Witness for C4's amended extraction at the counterexample's free-text
input. -/
theorem c4_lenient_extraction_witness :
    pyStrip (("at 01:23 in the video").data) ≠ []
    ∧ pyIsDigit (pyStrip (("at 01:23 in the video").data)) = false
    ∧ audio_transcriber.regexSearchTs (pyStrip (("at 01:23 in the video").data))
        = some (("01:23").data)
    ∧ audio_transcriber._parse_timestamp_to_seconds
        (.str (("at 01:23 in the video").data))
        = some (.fin (tsPatVal (("01:23").data))) :=
  ⟨by decide, by decide, by decide,
    c4_lenient_extraction.2.2 (("at 01:23 in the video").data) (("01:23").data)
      (by decide) (by decide) (by decide)⟩
